import Mathlib

/-!
Verification of the road-detector raster-to-vector pipeline (rd.py).

The definitions below are shallow embeddings of the corresponding Python
functions: machine floats are idealized as exact rationals, numpy rounding
(round half to even) is modelled explicitly, and third-party geometric
library calls (shapely linemerge / simplify, scipy cKDTree) are either
modelled by their documented input-output behaviour or abstracted into an
explicitly stated behavioural hypothesis.
-/

/-- Round half to even on rationals, as numpy.round does on each value. -/
def rhe (x : ℚ) : ℤ :=
  if x - ⌊x⌋ < 1/2 then ⌊x⌋
  else if 1/2 < x - ⌊x⌋ then ⌊x⌋ + 1
  else if Even ⌊x⌋ then ⌊x⌋ else ⌊x⌋ + 1

/-- numpy ndarray.round(d): round each value to d decimal places. -/
def roundTo (d : ℕ) (x : ℚ) : ℚ := (rhe (x * 10 ^ d) : ℚ) / 10 ^ d

theorem rhe_intCast (k : ℤ) : rhe (k : ℚ) = k := by
  unfold rhe
  rw [Int.floor_intCast]
  simp

theorem rhe_eq_of_eq_intCast (x : ℚ) (k : ℤ) (h : x = (k : ℚ)) : rhe x = k := by
  rw [h, rhe_intCast]

theorem rhe_sub_le (x : ℚ) : |(rhe x : ℚ) - x| ≤ 1/2 := by
  have hfl : (⌊x⌋ : ℚ) ≤ x := Int.floor_le x
  have hfu : x < (⌊x⌋ : ℚ) + 1 := Int.lt_floor_add_one x
  unfold rhe
  split
  case isTrue h =>
    rw [abs_sub_comm, abs_of_nonneg (by linarith)]
    linarith
  case isFalse h =>
    push_neg at h
    split
    case isTrue h2 =>
      push_cast
      rw [abs_of_nonneg (by linarith)]
      linarith
    case isFalse h2 =>
      push_neg at h2
      have hx : x - ⌊x⌋ = 1/2 := le_antisymm h2 h
      split
      · rw [abs_sub_comm, abs_of_nonneg (by linarith)]
        linarith
      · push_cast
        rw [abs_of_nonneg (by linarith)]
        linarith

theorem roundTo_sub_le (d : ℕ) (x : ℚ) : |roundTo d x - x| ≤ 1 / (2 * 10 ^ d) := by
  unfold roundTo
  have h10 : (0:ℚ) < 10 ^ d := by positivity
  have h := rhe_sub_le (x * 10 ^ d)
  rw [show (rhe (x * 10 ^ d) : ℚ) / 10 ^ d - x = ((rhe (x * 10 ^ d) : ℚ) - x * 10 ^ d) / 10 ^ d by
        field_simp; ring]
  rw [abs_div, abs_of_pos h10, div_le_div_iff₀ h10 (by positivity)]
  calc |(rhe (x * 10 ^ d) : ℚ) - x * 10 ^ d| * (2 * 10 ^ d)
      ≤ (1/2) * (2 * 10 ^ d) := by
        apply mul_le_mul_of_nonneg_right h (by positivity)
    _ = 1 * 10 ^ d := by ring

theorem roundTo_eq_int_div (d : ℕ) (x : ℚ) : ∃ k : ℤ, roundTo d x = (k : ℚ) / 10 ^ d :=
  ⟨rhe (x * 10 ^ d), rfl⟩

theorem roundTo_idem (d : ℕ) (x : ℚ) : roundTo d (roundTo d x) = roundTo d x := by
  unfold roundTo
  have h10 : (10:ℚ) ^ d ≠ 0 := by positivity
  rw [div_mul_cancel₀ _ h10, rhe_intCast]

-- ===================================================================
-- Skeleton vectorization: pixel graph construction (rd.py lines 213-244)
-- ===================================================================

/-- An unscaled pixel coordinate (x, y), i.e. a row of `unscaled_xy = np.c_[j,i]`. -/
abbrev Pix := ℤ × ℤ

/-- Squared pixel-offset distance between two unscaled pixels
(`np.sum((unscaled_xy_v - unscaled_xy_u)**2)`). -/
def sqDistZ (a b : Pix) : ℤ := (b.1 - a.1) ^ 2 + (b.2 - a.2) ^ 2

/-- Squared euclidean distance between two scaled coordinates. -/
def sqDistQ (a b : ℚ × ℚ) : ℚ := (b.1 - a.1) ^ 2 + (b.2 - a.2) ^ 2

/-- Scaled node coordinate: `xy = unscaled_xy * stride * (len(img)/(len(img)-1))`
followed by `xy = xy.round(2)` (rd.py lines 217-218); `n` is `len(img)`. -/
def scaleXY (stride : ℚ) (n : ℕ) (p : Pix) : ℚ × ℚ :=
  (roundTo 2 ((p.1 : ℚ) * stride * ((n : ℚ) / ((n : ℚ) - 1))),
   roundTo 2 ((p.2 : ℚ) * stride * ((n : ℚ) / ((n : ℚ) - 1))))

/-- All ordered pairs (i < j in list order) of elements of a list, as
`cKDTree.query_pairs` enumerates index pairs i < j. -/
def allPairs {α : Type} : List α → List (α × α)
  | [] => []
  | x :: xs => xs.map (fun y => (x, y)) ++ allPairs xs

/-- Candidate edges: the pairs returned by `cKDTree(xy).query_pairs(1.5*stride)`,
i.e. pairs of skeleton pixels whose scaled, rounded coordinates lie within
euclidean distance 1.5*stride of each other. -/
def candidates (skel : List Pix) (stride : ℚ) (n : ℕ) : List (Pix × Pix) :=
  (allPairs skel).filter
    (fun e => decide (sqDistQ (scaleXY stride n e.1) (scaleXY stride n e.2) ≤ (3/2 * stride) ^ 2))

/-- The per-edge keep decision of the T-junction disambiguation loop
(rd.py lines 228-238): a non-diagonal candidate is always kept; a diagonal
candidate (squared pixel offset exactly 2) is kept iff neither corner pixel
`c=(a.x,b.y)` nor `d=(b.x,a.y)` is an on-pixel of the skeleton. -/
def keepEdge (skel : List Pix) (a b : Pix) : Bool :=
  if sqDistZ a b = 2 then decide (¬ (((a.1, b.2) ∈ skel) ∨ ((b.1, a.2) ∈ skel)))
  else true

/-- The edge list after T-junction disambiguation (`u = u[keep_mask]` etc.). -/
def graphEdges (skel : List Pix) (stride : ℚ) (n : ℕ) : List (Pix × Pix) :=
  (candidates skel stride n).filter (fun e => keepEdge skel e.1 e.2)

/-- C1: a candidate edge whose unscaled pixel offset has squared distance
exactly 2 (a diagonal) survives T-junction disambiguation iff neither of the
two corner pixels (a.x, b.y) and (b.x, a.y) is an on-pixel of the skeleton. -/
theorem diagonal_candidate_kept_iff (skel : List Pix) (stride : ℚ) (n : ℕ) (a b : Pix)
    (hc : (a, b) ∈ candidates skel stride n) (hd : sqDistZ a b = 2) :
    (a, b) ∈ graphEdges skel stride n ↔ ((a.1, b.2) ∉ skel ∧ (b.1, a.2) ∉ skel) := by
  unfold graphEdges
  rw [List.mem_filter]
  have hk : keepEdge skel (a, b).1 (a, b).2
      = decide (¬ (((a.1, b.2) ∈ skel) ∨ ((b.1, a.2) ∈ skel))) := by
    show keepEdge skel a b = _
    unfold keepEdge
    rw [if_pos hd]
  rw [hk, decide_eq_true_eq]
  constructor
  · rintro ⟨-, hkeep⟩
    push_neg at hkeep
    exact hkeep
  · intro hcorners
    refine ⟨hc, ?_⟩
    push_neg
    exact hcorners

/-- The 3-pixel L-shaped skeleton (x, y) pixel coordinates: the two arm tips
(0,0) and (1,1) plus the right-angle corner pixel (1,0). -/
def skelL : List Pix := [(0, 0), (1, 0), (1, 1)]

theorem rhe_350_3 : rhe ((350 : ℚ) / 3) = 117 := by
  have hf : ⌊(350 : ℚ) / 3⌋ = 116 := by
    rw [Int.floor_eq_iff]
    norm_num
  unfold rhe
  rw [hf]
  norm_num

theorem roundTo_eq_of_eq (d : ℕ) (x : ℚ) (k : ℤ) (h : x * 10 ^ d = (k : ℚ)) (y : ℚ)
    (hy : (k : ℚ) / 10 ^ d = y) : roundTo d x = y := by
  unfold roundTo
  rw [rhe_eq_of_eq_intCast _ _ h, hy]

theorem scaleXY_L_int (a b : ℤ) :
    scaleXY 17 18 (a, b) = (((18 * a : ℤ) : ℚ), ((18 * b : ℤ) : ℚ)) := by
  apply Prod.ext
  · exact roundTo_eq_of_eq 2 _ (1800 * a) (by push_cast; ring) _ (by push_cast; ring)
  · exact roundTo_eq_of_eq 2 _ (1800 * b) (by push_cast; ring) _ (by push_cast; ring)

theorem diag_mem_candidates_L :
    ((((0:ℤ), (0:ℤ)), ((1:ℤ), (1:ℤ))) ∈ candidates skelL 17 18) := by
  unfold candidates
  rw [List.mem_filter]
  constructor
  · show _ ∈ allPairs skelL
    unfold allPairs skelL
    simp
  · rw [decide_eq_true_eq]
    show sqDistQ (scaleXY 17 18 (0, 0)) (scaleXY 17 18 (1, 1)) ≤ (3/2 * 17) ^ 2
    rw [scaleXY_L_int 0 0, scaleXY_L_int 1 1]
    unfold sqDistQ
    push_cast
    norm_num

/-- C1 witness: in an 18x18 raster at stride 17, the diagonal between the two
non-corner pixels of the L is a KD-tree candidate, yet it does not appear in
the disambiguated edge list because the corner pixel (1,0) is present. -/
theorem diagonal_candidate_kept_iff_witness :
    ((((0:ℤ), (0:ℤ)), ((1:ℤ), (1:ℤ))) ∈ candidates skelL 17 18) ∧
    ((((0:ℤ), (0:ℤ)), ((1:ℤ), (1:ℤ))) ∉ graphEdges skelL 17 18) := by
  have h := diagonal_candidate_kept_iff skelL 17 18 (0, 0) (1, 1) diag_mem_candidates_L
    (by unfold sqDistZ; norm_num)
  refine ⟨diag_mem_candidates_L, fun hm => ?_⟩
  have h2 := h.mp hm
  have h3 : ((1:ℤ), (0:ℤ)) ∈ skelL := by unfold skelL; simp
  exact h2.2 h3

-- ===================================================================
-- Probability fusion: get_raster_probability (rd.py lines 154-189)
-- ===================================================================

/-- The fixed upscale factor of the atomic branch (rd.py line 175). -/
def upscale : ℕ := 2

/-- The hardcoded raw stride of an atomic model prediction (rd.py line 171). -/
def atomic_stride : ℕ := 4

/-- Stride update of the atomic branch (rd.py lines 176-178):
`assert stride % upscale == 0; stride //= upscale`, with the failed
assertion modelled as an error result. -/
def strideAfterUpscale (stride up : ℕ) : Except String ℕ :=
  if stride % up = 0 then Except.ok (stride / up) else Except.error "PreconditionViolation"

/-- The atomic branch of get_raster_probability: `P_rgb` holds the channels of
the bilinearly upscaled prediction image; the returned map is
`P = P_rgb[:,:,0] + green_weight * P_rgb[:,:,1]` (rd.py line 187) and the
returned stride is the halved one. -/
def get_raster_probability_atomic (P_rgb : ℕ → ℕ → ℚ × ℚ × ℚ) (green_weight : ℚ) :
    Except String ((ℕ → ℕ → ℚ) × ℕ) :=
  match strideAfterUpscale atomic_stride upscale with
  | Except.error e => Except.error e
  | Except.ok s =>
      Except.ok ((fun i j => (P_rgb i j).1 + green_weight * (P_rgb i j).2.1), s)

/-- C6: for every atomic prediction image the fused stride is 2 (the hardcoded
stride 4 halved by the fixed x2 upscale), the divisibility precondition being
checked; a stride not divisible by the upscale factor yields a
PreconditionViolation error instead of a result. -/
theorem atomic_fused_stride_is_two (P_rgb : ℕ → ℕ → ℚ × ℚ × ℚ) (green_weight : ℚ) :
    (∃ P, get_raster_probability_atomic P_rgb green_weight = Except.ok (P, 2)) ∧
    (∀ s : ℕ, s % upscale ≠ 0 →
      strideAfterUpscale s upscale = Except.error "PreconditionViolation") := by
  constructor
  · exact ⟨(fun i j => (P_rgb i j).1 + green_weight * (P_rgb i j).2.1), rfl⟩
  · intro s hs
    unfold strideAfterUpscale
    rw [if_neg hs]

/-- C6 witness: a hypothetical odd stride 3 is rejected, while the actual
atomic path produces stride 2. -/
theorem atomic_fused_stride_is_two_witness :
    (∃ P, get_raster_probability_atomic (fun _ _ => (0, 0, 0)) (3/20) = Except.ok (P, 2)) ∧
    strideAfterUpscale 3 upscale = Except.error "PreconditionViolation" := by
  have h := atomic_fused_stride_is_two (fun _ _ => (0, 0, 0)) (3/20)
  exact ⟨h.1, h.2 3 (by decide)⟩

-- ===================================================================
-- Submission writing: make_submission (rd.py lines 283-302)
-- ===================================================================

/-- A polyline in output coordinate space. -/
abbrev LString := List (ℚ × ℚ)

/-- The rows emitted for one tile (rd.py lines 292-297): a single sentinel row
when the vectorizer produced no line strings, otherwise one row per line
string, each carrying the tile identifier and the quoted WKT text. -/
def rowsForTile (wkt : LString → String) (tile : String) (shapes : List LString) : List String :=
  if shapes.isEmpty then [tile ++ ",\"LINESTRING EMPTY\""]
  else shapes.map (fun s => tile ++ ",\"" ++ wkt s ++ "\"")

/-- The per-tile loop of make_submission (rd.py lines 287-297): `rows`
accumulates across tiles; an exception raised while processing one tile
propagates out of the loop. -/
def submissionLoop (wkt : LString → String) (post : String → Except String (List LString)) :
    List String → List String → Except String (List String)
  | [], rows => Except.ok rows
  | iid :: rest, rows =>
    match post iid with
    | Except.error e => Except.error e
    | Except.ok shape => submissionLoop wkt post rest (rows ++ rowsForTile wkt iid shape)

/-- make_submission (rd.py lines 283-302): run the pipeline on every tile in
enumeration order, then emit the header line followed by all accumulated rows.
`post` is postprocess for a fixed model, `wkt` the WKT serializer. -/
def make_submission (wkt : LString → String) (post : String → Except String (List LString))
    (iids : List String) : Except String (List String) :=
  match submissionLoop wkt post iids [] with
  | Except.error e => Except.error e
  | Except.ok rows => Except.ok ("ImageId,WKT_Pix" :: rows)

theorem submissionLoop_ok (wkt : LString → String) (postOk : String → List LString) :
    ∀ (l : List String) (acc : List String),
      submissionLoop wkt (fun i => Except.ok (postOk i)) l acc
        = Except.ok (acc ++ l.flatMap (fun i => rowsForTile wkt i (postOk i))) := by
  intro l
  induction l with
  | nil => intro acc; simp [submissionLoop]
  | cons j rest ih =>
    intro acc
    simp only [submissionLoop, List.flatMap_cons, ih, List.append_assoc]

/-- C7: on a failure-free run, make_submission emits the header row
`ImageId,WKT_Pix` and then, per tile in enumeration order, exactly one
sentinel row `tile,"LINESTRING EMPTY"` when the tile has no polylines and
otherwise exactly one row per polyline, each row prefixed by the tile
identifier, in vectorizer output order. -/
theorem make_submission_rows (wkt : LString → String) (postOk : String → List LString)
    (iids : List String) :
    make_submission wkt (fun i => Except.ok (postOk i)) iids
      = Except.ok ("ImageId,WKT_Pix" ::
          iids.flatMap (fun i => rowsForTile wkt i (postOk i))) ∧
    (∀ i, rowsForTile wkt i [] = [i ++ ",\"LINESTRING EMPTY\""]) ∧
    (∀ i shapes, shapes ≠ [] → (rowsForTile wkt i shapes).length = shapes.length ∧
      ∀ r ∈ rowsForTile wkt i shapes, ∃ s ∈ shapes, r = i ++ ",\"" ++ wkt s ++ "\"") := by
  refine ⟨?_, fun i => rfl, ?_⟩
  · unfold make_submission
    rw [submissionLoop_ok]
    simp
  · intro i shapes hne
    cases shapes with
    | nil => exact absurd rfl hne
    | cons a as =>
      constructor
      · show (List.map (fun s => i ++ ",\"" ++ wkt s ++ "\"") (a :: as)).length = _
        rw [List.length_map]
      · intro r hr
        obtain ⟨s, hs, rfl⟩ := List.mem_map.mp hr
        exact ⟨s, hs, rfl⟩

/-- C7 witness: two tiles, the first producing no polylines and the second
producing two, yield exactly the sentinel row plus two rows for the second
tile, after the header. -/
theorem make_submission_rows_witness :
    make_submission (fun _ => "LS") (fun i => Except.ok (if i = "t2" then [[(0, 0)], [(1, 1)]] else []))
        ["t1", "t2"]
      = Except.ok ["ImageId,WKT_Pix", "t1,\"LINESTRING EMPTY\"",
          "t2,\"LS\"", "t2,\"LS\""] ∧
    (rowsForTile (fun _ => "LS") "t2" [[(0, 0)], [(1, 1)]]).length = 2 := by
  have h := make_submission_rows (fun _ => "LS")
    (fun i => if i = "t2" then [[(0, 0)], [(1, 1)]] else []) ["t1", "t2"]
  constructor
  · rw [h.1]
    rfl
  · exact ((h.2.2 "t2" [[(0, 0)], [(1, 1)]] (by simp)).1).trans rfl

/-- Concrete fallible pipeline: the tile `t_bad` raises, every other tile
vectorizes to a single segment. -/
def postFail : String → Except String (List LString) := fun i =>
  if i = "t_bad" then Except.error "PreconditionViolation" else Except.ok [[(0, 0), (1, 0)]]

/-- C5 counterexample: with two tiles where the first fails, make_submission
does not process the other tile at all — the whole run aborts with the error
and no row (not even for the healthy tile `t_good`) is produced. -/
theorem make_submission_abort_counterexample :
    make_submission (fun _ => "LS") postFail ["t_bad", "t_good"]
      = Except.error "PreconditionViolation" := by
  rfl

/-- C5 amended: a failure on any tile propagates out of make_submission as an
error; the run aborts and no output rows are returned for any tile. -/
theorem make_submission_error_propagates (wkt : LString → String)
    (post : String → Except String (List LString)) (iids : List String) (i : String)
    (e : String) (hmem : i ∈ iids) (hfail : post i = Except.error e) :
    ∃ e2, make_submission wkt post iids = Except.error e2 := by
  suffices h : ∀ (l : List String) (acc : List String), i ∈ l →
      ∃ e2, submissionLoop wkt post l acc = Except.error e2 by
    obtain ⟨e2, he2⟩ := h iids [] hmem
    exact ⟨e2, by unfold make_submission; rw [he2]⟩
  intro l
  induction l with
  | nil => intro acc hm; exact absurd hm (List.not_mem_nil i)
  | cons j rest ih =>
    intro acc hm
    cases hpost : post j with
    | error e3 =>
      refine ⟨e3, ?_⟩
      unfold submissionLoop
      rw [hpost]
    | ok shape =>
      have hij : i ≠ j := by
        intro hij
        rw [hij, hpost] at hfail
        exact Except.noConfusion hfail
      have hmr : i ∈ rest := by
        rcases List.mem_cons.mp hm with h1 | h1
        · exact absurd h1 hij
        · exact h1
      obtain ⟨e2, he2⟩ := ih (acc ++ rowsForTile wkt j shape) hmr
      refine ⟨e2, ?_⟩
      unfold submissionLoop
      rw [hpost]
      exact he2

/-- C5 amended witness: the propagation theorem applied to the concrete
failing enumeration. -/
theorem make_submission_error_propagates_witness :
    ∃ e2, make_submission (fun _ => "LS") postFail ["t_good2", "t_bad"]
      = Except.error e2 := by
  refine make_submission_error_propagates (fun _ => "LS") postFail ["t_good2", "t_bad"]
    "t_bad" "PreconditionViolation" (by simp) (by rfl)

-- ===================================================================
-- Hair removal (rd.py lines 246-260)
-- ===================================================================

/-- Incidence count ("arity") of a coordinate across the line strings of a
shape (rd.py lines 249-253): every occurrence of the coordinate in every line
string, interior vertices included, contributes one. -/
def arity (strings : List LString) (p : ℚ × ℚ) : ℕ :=
  (strings.map (fun s => s.count p)).sum

/-- The euclidean length of a line string (shapely `strn.length`): the sum of
the segment lengths over consecutive coordinate pairs. Stated as a relation
because segment lengths are real square roots. -/
def HasLen (s : LString) (l : ℝ) : Prop :=
  l = ((s.zip s.tail).map
        (fun e => Real.sqrt (((e.2.1 - e.1.1 : ℚ) : ℝ) ^ 2 + ((e.2.2 - e.1.2 : ℚ) : ℝ) ^ 2))).sum

theorem HasLen_unique (s : LString) (l l2 : ℝ) (h1 : HasLen s l) (h2 : HasLen s l2) :
    l = l2 := by
  unfold HasLen at h1 h2
  rw [h1, h2]

/-- The hair-removal filter (rd.py lines 255-260): a line string of the shape
is kept iff its first endpoint's arity is not 1 and its last endpoint's arity
is not 1, or its length is at least `remove_hair`. -/
def goodStrings (strings : List LString) (remove_hair : ℝ) : Set LString :=
  {s | s ∈ strings ∧
    ((arity strings s.headI ≠ 1 ∧ arity strings (s.getLastD (0, 0)) ≠ 1) ∨
     ∃ l, HasLen s l ∧ remove_hair ≤ l)}

/-- C3 amended: the filter drops exactly the line strings having at least one
endpoint of arity 1 (not necessarily both) and length below remove_hair; in
particular every kept line string with both endpoints of arity 1 has length
at least remove_hair, but a short line string dangling at only one endpoint
is dropped as well. -/
theorem hair_filter_characterization (strings : List LString) (L : ℝ) (s : LString) (l : ℝ)
    (hl : HasLen s l) :
    (s ∈ goodStrings strings L ↔
      s ∈ strings ∧
        ((arity strings s.headI ≠ 1 ∧ arity strings (s.getLastD (0, 0)) ≠ 1) ∨ L ≤ l)) ∧
    (s ∈ goodStrings strings L →
      arity strings s.headI = 1 ∧ arity strings (s.getLastD (0, 0)) = 1 → L ≤ l) := by
  have hiff : (∃ l2, HasLen s l2 ∧ L ≤ l2) ↔ L ≤ l := by
    constructor
    · rintro ⟨l2, hl2, hL⟩
      rw [HasLen_unique s l l2 hl hl2]
      exact hL
    · intro hL
      exact ⟨l, hl, hL⟩
  constructor
  · unfold goodStrings
    rw [Set.mem_setOf_eq, hiff]
  · intro hmem har
    rcases hmem.2 with hkeep | hex
    · exact absurd har.1 hkeep.1
    · exact hiff.mp hex

/-- The short dangling string: one endpoint free, the other shared with strB. -/
def strA : LString := [(0, 0), (1, 0)]

/-- A long string sharing the coordinate (1,0) with strA. -/
def strB : LString := [(1, 0), (5, 0), (5, 4)]

theorem strA_len : HasLen strA 1 := by
  unfold HasLen strA
  simp only [List.tail_cons, List.zip_cons_cons, List.zip_nil_right, List.map_cons,
    List.map_nil, List.sum_cons, List.sum_nil]
  push_cast
  norm_num

theorem strB_len : HasLen strB 8 := by
  unfold HasLen strB
  simp only [List.tail_cons, List.zip_cons_cons, List.zip_nil_right, List.map_cons,
    List.map_nil, List.sum_cons, List.sum_nil]
  push_cast
  rw [show ((5:ℝ) - 1) ^ 2 + (0 - 0) ^ 2 = 4 ^ 2 by norm_num,
      show ((5:ℝ) - 5) ^ 2 + (4 - 0) ^ 2 = 4 ^ 2 by norm_num,
      Real.sqrt_sq (by norm_num : (0:ℝ) ≤ 4)]
  norm_num

theorem arity_strA_head : arity [strA, strB] ((0:ℚ), (0:ℚ)) = 1 := by
  unfold arity strA strB
  simp [List.count_cons, List.count_nil]

theorem arity_strA_last : arity [strA, strB] ((1:ℚ), (0:ℚ)) = 2 := by
  unfold arity strA strB
  simp [List.count_cons, List.count_nil]

/-- C3 counterexample: strA has first endpoint of arity 1, last endpoint of
arity 2 (shared with strB) and length 1 < 2, so by the claim it should be
kept with remove_hair = 2 — yet the code's filter drops it. -/
theorem hair_one_dangling_endpoint_dropped :
    arity [strA, strB] ((0:ℚ), (0:ℚ)) = 1 ∧
    arity [strA, strB] ((1:ℚ), (0:ℚ)) = 2 ∧
    HasLen strA 1 ∧ (1 : ℝ) < 2 ∧
    strA ∉ goodStrings [strA, strB] 2 := by
  refine ⟨arity_strA_head, arity_strA_last, strA_len, by norm_num, ?_⟩
  rintro ⟨-, hkeep | ⟨l, hl, hL⟩⟩
  · have h1 : arity [strA, strB] strA.headI = 1 := arity_strA_head
    exact hkeep.1 h1
  · rw [HasLen_unique strA l 1 hl strA_len] at hL
    norm_num at hL

/-- C3 amended witness: strB is kept by the filter (its length 8 is at least
remove_hair = 2), via the characterization applied at the concrete shape. -/
theorem hair_filter_characterization_witness :
    strB ∈ goodStrings [strA, strB] 2 := by
  have h := hair_filter_characterization [strA, strB] 2 strB 8 strB_len
  exact h.1.mpr ⟨by simp, Or.inr (by norm_num)⟩

-- ===================================================================
-- Duplicate-edge repair: ensure_no_duplicates (rd.py lines 191-211)
-- ===================================================================

/-- An edge for deduplication: a pair of coordinate pairs. -/
abbrev Seg := (ℚ × ℚ) × (ℚ × ℚ)

/-- Consecutive coordinate pairs of one line string
(`zip(strn.coords, strn.coords[1:])`). -/
def segsOf (s : LString) : List Seg := s.zip s.tail

/-- All consecutive coordinate pairs drawn from all line strings. -/
def allSegs (shape : List LString) : List Seg := shape.flatMap segsOf

/-- All vertices of all line strings of a shape. -/
def allPts (shape : List LString) : List (ℚ × ℚ) := shape.flatMap id

/-- Round both components of a coordinate to 1 decimal place. -/
def roundPt (p : ℚ × ℚ) : ℚ × ℚ := (roundTo 1 p.1, roundTo 1 p.2)

/-- `edges.round(1)`: round both endpoints of an edge. -/
def roundSeg (e : Seg) : Seg := (roundPt e.1, roundPt e.2)

/-- Python tuple comparison of two coordinate pairs (lexicographic). -/
def ptLe (p q : ℚ × ℚ) : Bool := decide (p.1 < q.1 ∨ (p.1 = q.1 ∧ p.2 ≤ q.2))

/-- `tuple(sorted(map(tuple, edge)))`: present an edge as an unordered pair by
sorting its two endpoints lexicographically. -/
def sortSeg (e : Seg) : Seg := if ptLe e.1 e.2 then e else (e.2, e.1)

/-- The rounded, endpoint-sorted consecutive pairs of all line strings
(rd.py lines 198-205). -/
def roundedSortedSegs (shape : List LString) : List Seg :=
  (allSegs shape).map (fun e => sortSeg (roundSeg e))

/-- ensure_no_duplicates (rd.py lines 191-211): when the number of distinct
unordered rounded pairs is smaller than the total edge count, duplicates
exist and the shape is rebuilt by line-merging the deduplicated edge set;
otherwise the shape is returned unmodified. `merge` abstracts
shapely.ops.linemerge applied to the edge set. -/
def ensure_no_duplicates (merge : List Seg → List LString) (shape : List LString) :
    List LString :=
  if (roundedSortedSegs shape).dedup.length < (roundedSortedSegs shape).length
  then merge (roundedSortedSegs shape).dedup
  else shape

theorem ptLe_total (p q : ℚ × ℚ) (h : ptLe p q = false) : ptLe q p = true := by
  unfold ptLe at h ⊢
  rw [decide_eq_false_iff_not] at h
  rw [decide_eq_true_eq]
  push_neg at h
  rcases lt_trichotomy p.1 q.1 with h1 | h1 | h1
  · exact absurd h1 (not_lt.mpr h.1)
  · exact Or.inr ⟨h1.symm, le_of_lt (h.2 h1)⟩
  · exact Or.inl h1

theorem sortSeg_cases (e : Seg) : sortSeg e = e ∨ sortSeg e = (e.2, e.1) := by
  unfold sortSeg
  split
  · exact Or.inl rfl
  · exact Or.inr rfl

theorem roundPt_idem (p : ℚ × ℚ) : roundPt (roundPt p) = roundPt p := by
  unfold roundPt
  rw [roundTo_idem, roundTo_idem]

theorem roundSeg_of_fixed (e : Seg) (h1 : roundPt e.1 = e.1) (h2 : roundPt e.2 = e.2) :
    roundSeg e = e := by
  unfold roundSeg
  rw [h1, h2]

/-- Both endpoints of an element of the rounded sorted edge list are fixed by
coordinate rounding. -/
theorem roundedSortedSegs_fixed (shape : List LString) (x : Seg)
    (hx : x ∈ roundedSortedSegs shape) : roundPt x.1 = x.1 ∧ roundPt x.2 = x.2 := by
  unfold roundedSortedSegs at hx
  obtain ⟨f, -, rfl⟩ := List.mem_map.mp hx
  rcases sortSeg_cases (roundSeg f) with hc | hc <;> rw [hc] <;>
    exact ⟨roundPt_idem _, roundPt_idem _⟩

theorem sortSeg_fixed_of_mem_rss (shape : List LString) (x : Seg)
    (hx : x ∈ roundedSortedSegs shape) : sortSeg x = x := by
  unfold roundedSortedSegs at hx
  obtain ⟨f, -, rfl⟩ := List.mem_map.mp hx
  unfold sortSeg
  split
  case isTrue h => rfl
  case isFalse h =>
    split
    case isTrue h2 => rfl
    case isFalse h2 =>
      exact absurd (ptLe_total _ _ (Bool.not_eq_true _ ▸ (Bool.of_not_eq_true h))) h2

/-- C4: the output of ensure_no_duplicates has no duplicate unordered rounded
consecutive pair (given that line-merge preserves the segment multiset up to
per-segment orientation), and when the distinct-pair count already equals the
edge count the input shape is returned unmodified. -/
theorem ensure_no_duplicates_nodup (merge : List Seg → List LString) (shape : List LString)
    (hm : ∀ es : List Seg, ((allSegs (merge es)).map sortSeg).Perm (es.map sortSeg)) :
    (roundedSortedSegs (ensure_no_duplicates merge shape)).Nodup ∧
    ((roundedSortedSegs shape).dedup.length = (roundedSortedSegs shape).length →
      ensure_no_duplicates merge shape = shape) := by
  constructor
  · unfold ensure_no_duplicates
    split
    case isTrue hdup =>
      have hDsub : ∀ x ∈ (roundedSortedSegs shape).dedup, x ∈ roundedSortedSegs shape :=
        fun x hx => List.mem_dedup.mp hx
      have hmapD : (roundedSortedSegs shape).dedup.map sortSeg = (roundedSortedSegs shape).dedup := by
        rw [List.map_congr_left (fun x hx => sortSeg_fixed_of_mem_rss shape x (hDsub x hx))]
        exact List.map_id _
      have hperm := hm (roundedSortedSegs shape).dedup
      rw [hmapD] at hperm
      have hfix : ∀ e ∈ allSegs (merge (roundedSortedSegs shape).dedup),
          sortSeg (roundSeg e) = sortSeg e := by
        intro e he
        have hse : sortSeg e ∈ (roundedSortedSegs shape).dedup :=
          hperm.mem_iff.mp (List.mem_map_of_mem sortSeg he)
        have hrd := roundedSortedSegs_fixed shape (sortSeg e) (hDsub _ hse)
        rcases sortSeg_cases e with hc | hc <;> rw [hc] at hrd
        · rw [roundSeg_of_fixed e hrd.1 hrd.2]
        · rw [roundSeg_of_fixed e hrd.2 hrd.1]
      show (roundedSortedSegs (merge (roundedSortedSegs shape).dedup)).Nodup
      have hout : roundedSortedSegs (merge (roundedSortedSegs shape).dedup)
          = (allSegs (merge (roundedSortedSegs shape).dedup)).map
              (fun e => sortSeg (roundSeg e)) := rfl
      rw [hout, List.map_congr_left hfix]
      exact hperm.nodup_iff.mpr (List.nodup_dedup _)
    case isFalse hdup =>
      have hlen : (roundedSortedSegs shape).dedup.length = (roundedSortedSegs shape).length := by
        have hle := (List.dedup_sublist (roundedSortedSegs shape)).length_le
        omega
      have heq := (List.dedup_sublist (roundedSortedSegs shape)).eq_of_length hlen
      exact List.dedup_eq_self.mp heq
  · intro heq
    unfold ensure_no_duplicates
    rw [if_neg (by omega)]

/-- A trivial merge that returns each input segment as its own two-point line
string; it preserves segments exactly. -/
def mergeSimple : List Seg → List LString := fun es => es.map (fun e => [e.1, e.2])

theorem allSegs_mergeSimple (es : List Seg) : allSegs (mergeSimple es) = es := by
  induction es with
  | nil => rfl
  | cons e rest ih =>
    show segsOf [e.1, e.2] ++ allSegs (mergeSimple rest) = e :: rest
    rw [ih]
    rfl

theorem mergeSimple_perm (es : List Seg) :
    ((allSegs (mergeSimple es)).map sortSeg).Perm (es.map sortSeg) := by
  rw [allSegs_mergeSimple]

/-- C4 witness: a single-segment shape has no duplicates, its rounded pair
list is duplicate-free and it is returned unmodified. -/
theorem ensure_no_duplicates_nodup_witness :
    (roundedSortedSegs (ensure_no_duplicates mergeSimple
        [[((0:ℚ), (0:ℚ)), ((1:ℚ), (0:ℚ))]])).Nodup ∧
    ensure_no_duplicates mergeSimple [[((0:ℚ), (0:ℚ)), ((1:ℚ), (0:ℚ))]]
      = [[((0:ℚ), (0:ℚ)), ((1:ℚ), (0:ℚ))]] := by
  have h := ensure_no_duplicates_nodup mergeSimple
    [[((0:ℚ), (0:ℚ)), ((1:ℚ), (0:ℚ))]] mergeSimple_perm
  have hform : roundedSortedSegs [[((0:ℚ), (0:ℚ)), ((1:ℚ), (0:ℚ))]]
      = [sortSeg (roundSeg (((0:ℚ), (0:ℚ)), ((1:ℚ), (0:ℚ))))] := rfl
  refine ⟨h.1, h.2 ?_⟩
  rw [hform, List.dedup_eq_self.mpr (List.nodup_singleton _)]

theorem zip_tail_mem {l : List (ℚ × ℚ)} {e : Seg} (he : e ∈ l.zip l.tail) :
    e.1 ∈ l ∧ e.2 ∈ l := by
  induction l with
  | nil => simp [List.zip] at he
  | cons a t ih =>
    cases t with
    | nil => simp [List.zip] at he
    | cons b t2 =>
      rw [List.tail_cons, List.zip_cons_cons] at he
      rcases List.mem_cons.mp he with rfl | hmem
      · exact ⟨List.mem_cons_self a _, List.mem_cons_of_mem a (List.mem_cons_self b t2)⟩
      · have hih := ih (by rw [List.tail_cons]; exact hmem)
        exact ⟨List.mem_cons_of_mem a hih.1, List.mem_cons_of_mem a hih.2⟩

theorem allSegs_endpoints_mem (shape : List LString) (e : Seg) (he : e ∈ allSegs shape) :
    e.1 ∈ allPts shape ∧ e.2 ∈ allPts shape := by
  unfold allSegs at he
  obtain ⟨s, hs, hes⟩ := List.mem_flatMap.mp he
  have hz := zip_tail_mem (l := s) (e := e) hes
  constructor
  · exact List.mem_flatMap.mpr ⟨s, hs, by simpa using hz.1⟩
  · exact List.mem_flatMap.mpr ⟨s, hs, by simpa using hz.2⟩

/-- C9: when duplicates are detected, the returned shape is rebuilt entirely
from the rounded segment endpoints: every vertex is an integer multiple of
0.1 in each axis and is the 1-decimal rounding of some input vertex, hence
within 0.05 of it per axis; when no duplicate is detected the input shape is
returned with its coordinates untouched. `merge` abstracts shapely linemerge,
whose output vertices are endpoints of its input segments. -/
theorem ensure_no_duplicates_rebuilds_rounded (merge : List Seg → List LString)
    (shape : List LString)
    (hm : ∀ es : List Seg, ∀ p ∈ allPts (merge es), ∃ e ∈ es, p = e.1 ∨ p = e.2) :
    ((roundedSortedSegs shape).dedup.length < (roundedSortedSegs shape).length →
      ∀ p ∈ allPts (ensure_no_duplicates merge shape),
        (∃ k : ℤ, p.1 = (k : ℚ) / 10) ∧ (∃ k : ℤ, p.2 = (k : ℚ) / 10) ∧
        ∃ q ∈ allPts shape, p = roundPt q ∧ |p.1 - q.1| ≤ 1/20 ∧ |p.2 - q.2| ≤ 1/20) ∧
    (¬ (roundedSortedSegs shape).dedup.length < (roundedSortedSegs shape).length →
      ensure_no_duplicates merge shape = shape) := by
  constructor
  · intro hdup p hp
    rw [show ensure_no_duplicates merge shape = merge (roundedSortedSegs shape).dedup by
          unfold ensure_no_duplicates; rw [if_pos hdup]] at hp
    obtain ⟨e, he, hpe⟩ := hm _ p hp
    have heR : e ∈ roundedSortedSegs shape := List.mem_dedup.mp he
    obtain ⟨f, hf, hef⟩ := List.mem_map.mp heR
    have hq : ∃ q, q ∈ allPts shape ∧ p = roundPt q := by
      have hf1 := (allSegs_endpoints_mem shape f hf).1
      have hf2 := (allSegs_endpoints_mem shape f hf).2
      rcases sortSeg_cases (roundSeg f) with hc | hc <;> rw [hc] at hef
      · rcases hpe with h | h <;> rw [← hef] at h
        · exact ⟨f.1, hf1, h⟩
        · exact ⟨f.2, hf2, h⟩
      · rcases hpe with h | h <;> rw [← hef] at h
        · exact ⟨f.2, hf2, h⟩
        · exact ⟨f.1, hf1, h⟩
    obtain ⟨q, hqmem, hpq⟩ := hq
    have h1 : p.1 = roundTo 1 q.1 := by rw [hpq]; rfl
    have h2 : p.2 = roundTo 1 q.2 := by rw [hpq]; rfl
    have hb1 : |p.1 - q.1| ≤ 1/20 := by
      have hb := roundTo_sub_le 1 q.1
      rw [show (1:ℚ) / (2 * 10 ^ 1) = 1/20 by norm_num] at hb
      rw [h1]; exact hb
    have hb2 : |p.2 - q.2| ≤ 1/20 := by
      have hb := roundTo_sub_le 1 q.2
      rw [show (1:ℚ) / (2 * 10 ^ 1) = 1/20 by norm_num] at hb
      rw [h2]; exact hb
    refine ⟨?_, ?_, q, hqmem, hpq, hb1, hb2⟩
    · obtain ⟨k, hk⟩ := roundTo_eq_int_div 1 q.1
      exact ⟨k, by rw [h1, hk]; norm_num⟩
    · obtain ⟨k, hk⟩ := roundTo_eq_int_div 1 q.2
      exact ⟨k, by rw [h2, hk]; norm_num⟩
  · intro hdup
    unfold ensure_no_duplicates
    rw [if_neg hdup]

/-- A shape with two segments that become identical after 1-decimal rounding:
(0,0)-(1.02,0) and (0,0)-(1.04,0). -/
def shapeD : List LString := [[(0, 0), (51/50, 0)], [(0, 0), (26/25, 0)]]

theorem rhe_51_5 : rhe ((51 : ℚ) / 5) = 10 := by
  have hf : ⌊(51 : ℚ) / 5⌋ = 10 := by
    rw [Int.floor_eq_iff]
    norm_num
  unfold rhe
  rw [hf]
  norm_num

theorem rhe_52_5 : rhe ((52 : ℚ) / 5) = 10 := by
  have hf : ⌊(52 : ℚ) / 5⌋ = 10 := by
    rw [Int.floor_eq_iff]
    norm_num
  unfold rhe
  rw [hf]
  norm_num

theorem roundTo1_zero : roundTo 1 (0 : ℚ) = 0 :=
  roundTo_eq_of_eq 1 0 0 (by norm_num) 0 (by norm_num)

theorem roundTo1_one_o_two : roundTo 1 ((51 : ℚ) / 50) = 1 := by
  unfold roundTo
  rw [show (51 : ℚ) / 50 * 10 ^ 1 = 51/5 by norm_num, rhe_51_5]
  norm_num

theorem roundTo1_one_o_four : roundTo 1 ((26 : ℚ) / 25) = 1 := by
  unfold roundTo
  rw [show (26 : ℚ) / 25 * 10 ^ 1 = 52/5 by norm_num, rhe_52_5]
  norm_num

theorem roundPt_origin : roundPt ((0 : ℚ), (0 : ℚ)) = (0, 0) := by
  unfold roundPt
  rw [roundTo1_zero]

theorem roundPt_a : roundPt ((51/50 : ℚ), (0 : ℚ)) = (1, 0) := by
  unfold roundPt
  rw [roundTo1_zero]
  show (roundTo 1 (51/50), (0:ℚ)) = (1, 0)
  rw [roundTo1_one_o_two]

theorem roundPt_b : roundPt ((26/25 : ℚ), (0 : ℚ)) = (1, 0) := by
  unfold roundPt
  rw [roundTo1_zero]
  show (roundTo 1 (26/25), (0:ℚ)) = (1, 0)
  rw [roundTo1_one_o_four]

theorem sortSeg_01 :
    sortSeg (((0:ℚ), (0:ℚ)), ((1:ℚ), (0:ℚ))) = (((0:ℚ), (0:ℚ)), ((1:ℚ), (0:ℚ))) := by
  unfold sortSeg
  rw [if_pos]
  unfold ptLe
  rw [decide_eq_true_eq]
  norm_num

theorem rss_shapeD : roundedSortedSegs shapeD
    = [(((0:ℚ), (0:ℚ)), ((1:ℚ), (0:ℚ))), (((0:ℚ), (0:ℚ)), ((1:ℚ), (0:ℚ)))] := by
  show [sortSeg (roundSeg (((0:ℚ), (0:ℚ)), ((51/50 : ℚ), (0:ℚ)))),
        sortSeg (roundSeg (((0:ℚ), (0:ℚ)), ((26/25 : ℚ), (0:ℚ))))] = _
  rw [show roundSeg (((0:ℚ), (0:ℚ)), ((51/50 : ℚ), (0:ℚ)))
        = (((0:ℚ), (0:ℚ)), ((1:ℚ), (0:ℚ))) by
      unfold roundSeg; rw [roundPt_origin, roundPt_a]]
  rw [show roundSeg (((0:ℚ), (0:ℚ)), ((26/25 : ℚ), (0:ℚ)))
        = (((0:ℚ), (0:ℚ)), ((1:ℚ), (0:ℚ))) by
      unfold roundSeg; rw [roundPt_origin, roundPt_b]]
  rw [sortSeg_01]

theorem rss_shapeD_dedup :
    (roundedSortedSegs shapeD).dedup = [(((0:ℚ), (0:ℚ)), ((1:ℚ), (0:ℚ)))] := by
  rw [rss_shapeD, List.dedup_cons_of_mem (List.mem_singleton.mpr rfl)]
  exact List.dedup_eq_self.mpr (List.nodup_singleton _)

theorem shapeD_dup :
    (roundedSortedSegs shapeD).dedup.length < (roundedSortedSegs shapeD).length := by
  rw [rss_shapeD_dedup, rss_shapeD]
  simp

theorem mergeSimple_pts (es : List Seg) :
    ∀ p ∈ allPts (mergeSimple es), ∃ e ∈ es, p = e.1 ∨ p = e.2 := by
  intro p hp
  unfold mergeSimple allPts at hp
  obtain ⟨s, hs, hps⟩ := List.mem_flatMap.mp hp
  obtain ⟨e, he, rfl⟩ := List.mem_map.mp hs
  simp only [id_eq, List.mem_cons, List.mem_singleton, List.not_mem_nil, or_false] at hps
  rcases hps with h | h
  · exact ⟨e, he, Or.inl h⟩
  · exact ⟨e, he, Or.inr h⟩

/-- C9 witness: on the duplicate-bearing concrete shape the rebuilt vertex
(1,0) is the rounding of the input vertex (1.02,0): a multiple of 0.1 within
0.05 of it. -/
theorem ensure_no_duplicates_rebuilds_rounded_witness :
    (((1:ℚ), (0:ℚ)) ∈ allPts (ensure_no_duplicates mergeSimple shapeD)) ∧
    (∃ k : ℤ, ((1:ℚ), (0:ℚ)).1 = (k : ℚ) / 10) ∧
    (∃ q ∈ allPts shapeD,
      ((1:ℚ), (0:ℚ)) = roundPt q ∧ |((1:ℚ), (0:ℚ)).1 - q.1| ≤ 1/20) := by
  have h := ensure_no_duplicates_rebuilds_rounded mergeSimple shapeD
    (fun es => mergeSimple_pts es)
  have hmem : ((1:ℚ), (0:ℚ)) ∈ allPts (ensure_no_duplicates mergeSimple shapeD) := by
    rw [show ensure_no_duplicates mergeSimple shapeD
          = mergeSimple (roundedSortedSegs shapeD).dedup by
        unfold ensure_no_duplicates; rw [if_pos shapeD_dup]]
    rw [rss_shapeD_dedup]
    simp [mergeSimple, allPts]
  obtain ⟨hk1, hk2, q, hq, hpq, hb1, hb2⟩ := h.1 shapeD_dup ((1:ℚ), (0:ℚ)) hmem
  exact ⟨hmem, hk1, q, hq, hpq, hb1⟩

-- ===================================================================
-- Connected-component filtering: remove_small_components (rd.py 136-152)
-- ===================================================================

/-- A raster pixel position (row, column). -/
abbrev Cell := ℕ × ℕ

/-- 8-adjacency of two distinct cells: the 3x3 structuring element of
`ndimage.label(img, np.ones((3,3)))`. -/
def adjb (p q : Cell) : Bool :=
  decide (p ≠ q) && decide (((p.1 : ℤ) - q.1).natAbs ≤ 1)
    && decide (((p.2 : ℤ) - q.2).natAbs ≤ 1)

/-- The on-pixels of an h x w raster in row-major scan order. -/
def onPixels (h w : ℕ) (pix : ℕ → ℕ → Bool) : List Cell :=
  (List.range h).flatMap
    (fun i => ((List.range w).filter (fun j => pix i j)).map (fun j => (i, j)))

/-- One breadth step of component growth: adjoin the on-pixels adjacent to
the current set. -/
def grow (pts s : List Cell) : List Cell :=
  s ++ pts.filter (fun q => decide (q ∉ s) && s.any (fun r => adjb r q))

/-- Iterated growth. -/
def closureN (pts : List Cell) : ℕ → List Cell → List Cell
  | 0, s => s
  | n + 1, s => closureN pts n (grow pts s)

/-- The 8-connected component of p within the on-pixel list pts: the class of
pixels that receive the same ndimage label as p. -/
def component (pts : List Cell) (p : Cell) : List Cell := closureN pts pts.length [p]

/-- Accumulate the component list in first-pixel scan order, mirroring the
label order 1..N assigned by ndimage.label. -/
def labelsAux (pts : List Cell) : List Cell → List (List Cell) → List (List Cell)
  | [], acc => acc
  | p :: rest, acc =>
    if acc.any (fun c => decide (p ∈ c)) then labelsAux pts rest acc
    else labelsAux pts rest (acc ++ [component pts p])

/-- The labeled components of the raster, in label order. -/
def labels (pts : List Cell) : List (List Cell) := labelsAux pts pts []

/-- The scan keeping the running best and replacing it on ties: the result is
the element `num.sort_values().iloc[-1]` would select — the last maximal one
under the stable ascending sort. -/
def pickLastAux : List Cell → List (List Cell) → List Cell
  | b, [] => b
  | b, c :: rest => pickLastAux (if b.length ≤ c.length then c else b) rest

def pickLast : List (List Cell) → Option (List Cell)
  | [] => none
  | c :: rest => some (pickLastAux c rest)

/-- The surviving components of remove_small_components (rd.py lines 143-148):
first `num = num[num * stride >= min_length]`, then under largest_only
`num = num.sort_values().iloc[-1:]`. -/
def survivors (pts : List Cell) (stride minLen : ℕ) (largestOnly : Bool) :
    List (List Cell) :=
  let big := (labels pts).filter (fun c => decide (minLen ≤ c.length * stride))
  if largestOnly then (pickLast big).toList else big

/-- The output pixel mask `img = lab_mask[lab]`: a pixel is on iff its
component survived. -/
def rsc_core (pts : List Cell) (stride minLen : ℕ) (largestOnly : Bool) : Cell → Bool :=
  fun p => (survivors pts stride minLen largestOnly).any (fun c => decide (p ∈ c))

/-- `np.pad(img, 1, 'constant', constant_values=1)`: an (h+2) x (w+2) raster
whose outermost frame is all on and whose interior is the original raster. -/
def padPix (h w : ℕ) (pix : ℕ → ℕ → Bool) : ℕ → ℕ → Bool := fun i j =>
  if i = 0 ∨ i = h + 1 ∨ j = 0 ∨ j = w + 1 then true else pix (i - 1) (j - 1)

def paddedPts (h w : ℕ) (pix : ℕ → ℕ → Bool) : List Cell :=
  onPixels (h + 2) (w + 2) (padPix h w pix)

/-- remove_small_components (rd.py lines 136-152) as a pixel predicate in the
original raster frame; with padded_boundary the raster is padded by a 1-pixel
frame of on-pixels before labeling and stripped afterwards
(`img[1:-1, 1:-1]`, i.e. a coordinate shift by one). -/
def remove_small_components (h w : ℕ) (pix : ℕ → ℕ → Bool) (stride minLen : ℕ)
    (largestOnly padded : Bool) : ℕ → ℕ → Bool :=
  if padded then
    fun i j => rsc_core (paddedPts h w pix) stride minLen largestOnly (i + 1, j + 1)
  else
    fun i j => rsc_core (onPixels h w pix) stride minLen largestOnly (i, j)

/-- Reachability through a chain of 8-adjacent on-pixels, starting at p. -/
inductive Reach (pts : List Cell) (p : Cell) : Cell → Prop
  | refl : Reach pts p p
  | step {q r : Cell} : Reach pts p q → r ∈ pts → adjb q r = true → Reach pts p r

/-- Saturation: s is closed under adjoining adjacent on-pixels. -/
def Sat (pts s : List Cell) : Prop :=
  ∀ q ∈ pts, (∃ r ∈ s, adjb r q = true) → q ∈ s

theorem adjb_symm (p q : Cell) : adjb p q = adjb q p := by
  unfold adjb
  have h1 : decide (p ≠ q) = decide (q ≠ p) :=
    decide_eq_decide.mpr ⟨fun h he => h he.symm, fun h he => h he.symm⟩
  have h2 : decide (((p.1 : ℤ) - q.1).natAbs ≤ 1) = decide (((q.1 : ℤ) - p.1).natAbs ≤ 1) :=
    decide_eq_decide.mpr (by omega)
  have h3 : decide (((p.2 : ℤ) - q.2).natAbs ≤ 1) = decide (((q.2 : ℤ) - p.2).natAbs ≤ 1) :=
    decide_eq_decide.mpr (by omega)
  rw [h1, h2, h3]

theorem Reach.trans2 {pts : List Cell} {p q r : Cell}
    (h1 : Reach pts p q) (h2 : Reach pts q r) : Reach pts p r := by
  induction h2 with
  | refl => exact h1
  | step hq hr hadj ih => exact Reach.step ih hr hadj

theorem Reach.mem_or {pts : List Cell} {p q : Cell} (h : Reach pts p q) :
    q = p ∨ q ∈ pts := by
  induction h with
  | refl => exact Or.inl rfl
  | step hq hr hadj ih => exact Or.inr hr

theorem Reach.symm2 {pts : List Cell} {p q : Cell} (hp : p ∈ pts) (h : Reach pts p q) :
    Reach pts q p := by
  induction h with
  | refl => exact Reach.refl
  | step hq hr hadj ih =>
    rename_i q2 r2
    have hq2 : q2 ∈ pts := by
      rcases hq.mem_or with h1 | h1
      · rw [h1]; exact hp
      · exact h1
    have hrq : Reach pts r2 q2 :=
      Reach.step Reach.refl hq2 (by rw [adjb_symm]; exact hadj)
    exact hrq.trans2 ih

theorem mem_grow_left {pts s : List Cell} {x : Cell} (hx : x ∈ s) : x ∈ grow pts s := by
  unfold grow
  exact List.mem_append_left _ hx

theorem mem_closureN_of_mem {pts : List Cell} {x : Cell} :
    ∀ (n : ℕ) (s : List Cell), x ∈ s → x ∈ closureN pts n s := by
  intro n
  induction n with
  | zero => intro s hx; exact hx
  | succ m ih => intro s hx; exact ih (grow pts s) (mem_grow_left hx)

theorem reach_of_mem_grow {pts s : List Cell} {p : Cell}
    (hbase : ∀ x ∈ s, Reach pts p x) : ∀ x ∈ grow pts s, Reach pts p x := by
  intro x hx
  unfold grow at hx
  rcases List.mem_append.mp hx with h | h
  · exact hbase x h
  · obtain ⟨hxpts, hcond⟩ := List.mem_filter.mp h
    rw [Bool.and_eq_true] at hcond
    obtain ⟨r, hr, hadj⟩ := List.any_eq_true.mp hcond.2
    exact Reach.step (hbase r hr) hxpts hadj

theorem reach_of_mem_closureN {pts : List Cell} {p : Cell} :
    ∀ (n : ℕ) (s : List Cell), (∀ x ∈ s, Reach pts p x) →
      ∀ x ∈ closureN pts n s, Reach pts p x := by
  intro n
  induction n with
  | zero => intro s hbase x hx; exact hbase x hx
  | succ m ih => intro s hbase x hx; exact ih (grow pts s) (reach_of_mem_grow hbase) x hx

/-- Completeness: everything in the computed component is reachable. -/
theorem reach_of_mem_component {pts : List Cell} {p q : Cell}
    (hq : q ∈ component pts p) : Reach pts p q := by
  refine reach_of_mem_closureN pts.length [p] ?_ q hq
  intro x hx
  rw [List.mem_singleton.mp hx]
  exact Reach.refl

theorem grow_nodup {pts s : List Cell} (hp : pts.Nodup) (hs : s.Nodup) :
    (grow pts s).Nodup := by
  unfold grow
  rw [List.nodup_append]
  refine ⟨hs, List.Nodup.filter _ hp, ?_⟩
  intro x hx hx2
  obtain ⟨-, hcond⟩ := List.mem_filter.mp hx2
  rw [Bool.and_eq_true, decide_eq_true_eq] at hcond
  exact hcond.1 hx

theorem grow_subset {pts s : List Cell} (hsub : s ⊆ pts) : grow pts s ⊆ pts := by
  intro x hx
  unfold grow at hx
  rcases List.mem_append.mp hx with h | h
  · exact hsub h
  · exact (List.mem_filter.mp h).1

theorem closureN_nodup {pts : List Cell} (hp : pts.Nodup) :
    ∀ (n : ℕ) (s : List Cell), s.Nodup → (closureN pts n s).Nodup := by
  intro n
  induction n with
  | zero => intro s hs; exact hs
  | succ m ih => intro s hs; exact ih (grow pts s) (grow_nodup hp hs)

theorem closureN_subset {pts : List Cell} :
    ∀ (n : ℕ) (s : List Cell), s ⊆ pts → closureN pts n s ⊆ pts := by
  intro n
  induction n with
  | zero => intro s hs; exact hs
  | succ m ih => intro s hs; exact ih (grow pts s) (grow_subset hs)

theorem component_nodup {pts : List Cell} (hp : pts.Nodup) (p : Cell) :
    (component pts p).Nodup :=
  closureN_nodup hp pts.length [p] (List.nodup_singleton p)

theorem component_subset {pts : List Cell} {p : Cell} (hp : p ∈ pts) :
    component pts p ⊆ pts :=
  closureN_subset pts.length [p] (by intro x hx; rw [List.mem_singleton.mp hx]; exact hp)

theorem mem_component_self {pts : List Cell} (p : Cell) : p ∈ component pts p :=
  mem_closureN_of_mem pts.length [p] (List.mem_singleton.mpr rfl)

theorem nodup_subset_length {s pts : List Cell} (hs : s.Nodup) (hsub : s ⊆ pts) :
    s.length ≤ pts.length := by
  have h1 : s.toFinset.card = s.length := List.toFinset_card_of_nodup hs
  have h2 : s.toFinset ⊆ pts.toFinset := by
    intro x hx
    rw [List.mem_toFinset] at hx ⊢
    exact hsub hx
  have h3 : s.toFinset.card ≤ pts.toFinset.card := Finset.card_le_card h2
  have h4 : pts.toFinset.card ≤ pts.length := pts.toFinset_card_le
  omega

theorem sat_of_grow_eq {pts s : List Cell} (h : grow pts s = s) : Sat pts s := by
  intro q hq ⟨r, hr, hadj⟩
  by_contra hqs
  have hfil : q ∈ pts.filter (fun q => decide (q ∉ s) && s.any (fun r => adjb r q)) := by
    rw [List.mem_filter]
    refine ⟨hq, ?_⟩
    rw [Bool.and_eq_true, decide_eq_true_eq]
    exact ⟨hqs, List.any_eq_true.mpr ⟨r, hr, hadj⟩⟩
  have hmem : q ∈ grow pts s := by
    unfold grow
    exact List.mem_append_right _ hfil
  rw [h] at hmem
  exact hqs hmem

theorem grow_eq_of_sat {pts s : List Cell} (h : Sat pts s) : grow pts s = s := by
  unfold grow
  have hfil : pts.filter (fun q => decide (q ∉ s) && s.any (fun r => adjb r q)) = [] := by
    rw [List.filter_eq_nil_iff]
    intro q hq
    rw [Bool.and_eq_true, decide_eq_true_eq]
    rintro ⟨hqs, hany⟩
    obtain ⟨r, hr, hadj⟩ := List.any_eq_true.mp hany
    exact hqs (h q hq ⟨r, hr, hadj⟩)
  rw [hfil, List.append_nil]

theorem closureN_eq_of_sat {pts : List Cell} :
    ∀ (n : ℕ) (s : List Cell), Sat pts s → closureN pts n s = s := by
  intro n
  induction n with
  | zero => intro s hs; rfl
  | succ m ih =>
    intro s hs
    show closureN pts m (grow pts s) = s
    rw [grow_eq_of_sat hs]
    exact ih s hs

theorem grow_length_lt {pts s : List Cell} (h : grow pts s ≠ s) :
    s.length + 1 ≤ (grow pts s).length := by
  unfold grow at h ⊢
  rw [List.length_append]
  rcases Nat.eq_zero_or_pos (pts.filter (fun q => decide (q ∉ s)
      && s.any (fun r => adjb r q))).length with h0 | h0
  · rw [List.length_eq_zero] at h0
    rw [h0, List.append_nil] at h
    exact absurd rfl h
  · omega

/-- The pigeonhole saturation argument: after enough growth steps the set is
closed under adjacency. -/
theorem sat_closureN {pts : List Cell} (hp : pts.Nodup) :
    ∀ (n : ℕ) (s : List Cell), s.Nodup → s ⊆ pts →
      pts.length + 1 ≤ n + s.length → Sat pts (closureN pts n s) := by
  intro n
  induction n with
  | zero =>
    intro s hs hsub hlen
    have := nodup_subset_length hs hsub
    omega
  | succ m ih =>
    intro s hs hsub hlen
    by_cases hg : grow pts s = s
    · have hsat : Sat pts s := sat_of_grow_eq hg
      show Sat pts (closureN pts m (grow pts s))
      rw [hg, closureN_eq_of_sat m s hsat]
      exact hsat
    · show Sat pts (closureN pts m (grow pts s))
      refine ih (grow pts s) (grow_nodup hp hs) (grow_subset hsub) ?_
      have := grow_length_lt hg
      omega

theorem component_sat {pts : List Cell} (hp : pts.Nodup) {p : Cell} (hpp : p ∈ pts) :
    Sat pts (component pts p) := by
  refine sat_closureN hp pts.length [p] (List.nodup_singleton p) ?_ ?_
  · intro x hx; rw [List.mem_singleton.mp hx]; exact hpp
  · simp

/-- Soundness: everything reachable from p is in the computed component. -/
theorem mem_component_of_reach {pts : List Cell} (hp : pts.Nodup) {p q : Cell}
    (hpp : p ∈ pts) (h : Reach pts p q) : q ∈ component pts p := by
  induction h with
  | refl => exact mem_component_self p
  | step hq hr hadj ih =>
    exact component_sat hp hpp _ hr ⟨_, ih, hadj⟩

theorem mem_component_iff {pts : List Cell} (hp : pts.Nodup) {p q : Cell} (hpp : p ∈ pts) :
    q ∈ component pts p ↔ Reach pts p q :=
  ⟨reach_of_mem_component, mem_component_of_reach hp hpp⟩

/-- Two pixels of one component have set-equal components. -/
theorem component_eqv {pts : List Cell} (hp : pts.Nodup) {p q : Cell} (hpp : p ∈ pts)
    (hq : q ∈ component pts p) : ∀ x, x ∈ component pts q ↔ x ∈ component pts p := by
  intro x
  have hqr : Reach pts p q := reach_of_mem_component hq
  have hqpts : q ∈ pts := component_subset hpp hq
  constructor
  · intro hx
    have h1 : Reach pts q x := reach_of_mem_component hx
    exact mem_component_of_reach hp hpp (hqr.trans2 h1)
  · intro hx
    have h1 : Reach pts p x := reach_of_mem_component hx
    exact mem_component_of_reach hp hqpts ((hqr.symm2 hpp).trans2 h1)

theorem component_length_eq {pts : List Cell} (hp : pts.Nodup) {p q : Cell} (hpp : p ∈ pts)
    (hq : q ∈ component pts p) : (component pts q).length = (component pts p).length := by
  have h1 : (component pts q).toFinset = (component pts p).toFinset := by
    apply Finset.ext
    intro x
    rw [List.mem_toFinset, List.mem_toFinset]
    exact component_eqv hp hpp hq x
  have h2 := List.toFinset_card_of_nodup (component_nodup hp q)
  have h3 := List.toFinset_card_of_nodup (component_nodup hp p)
  rw [h1] at h2
  omega

theorem labelsAux_acc_mem (pts : List Cell) :
    ∀ (l : List Cell) (acc : List (List Cell)), ∀ c ∈ acc, c ∈ labelsAux pts l acc := by
  intro l
  induction l with
  | nil => intro acc c hc; exact hc
  | cons p rest ih =>
    intro acc c hc
    simp only [labelsAux]
    split
    · exact ih acc c hc
    · exact ih _ c (List.mem_append_left _ hc)

theorem labelsAux_covers (pts : List Cell) :
    ∀ (l : List Cell) (acc : List (List Cell)), ∀ p ∈ l, ∃ c ∈ labelsAux pts l acc, p ∈ c := by
  intro l
  induction l with
  | nil => intro acc p hp; exact absurd hp (List.not_mem_nil p)
  | cons q rest ih =>
    intro acc p hp
    simp only [labelsAux]
    rcases List.mem_cons.mp hp with rfl | hpr
    · split
      case isTrue hcond =>
        obtain ⟨c, hc, hpc⟩ := List.any_eq_true.mp hcond
        rw [decide_eq_true_eq] at hpc
        exact ⟨c, labelsAux_acc_mem pts rest acc c hc, hpc⟩
      case isFalse hcond =>
        refine ⟨component pts p, ?_, mem_component_self p⟩
        exact labelsAux_acc_mem pts rest _ _
          (List.mem_append_right _ (List.mem_singleton.mpr rfl))
    · split
      · exact ih acc p hpr
      · exact ih _ p hpr

theorem labelsAux_sources (pts : List Cell) :
    ∀ (l : List Cell) (acc : List (List Cell)), ∀ c ∈ labelsAux pts l acc,
      c ∈ acc ∨ ∃ p ∈ l, c = component pts p := by
  intro l
  induction l with
  | nil => intro acc c hc; exact Or.inl hc
  | cons q rest ih =>
    intro acc c hc
    simp only [labelsAux] at hc
    split at hc
    · rcases ih acc c hc with h | ⟨p, hp, hcp⟩
      · exact Or.inl h
      · exact Or.inr ⟨p, List.mem_cons_of_mem q hp, hcp⟩
    · rcases ih _ c hc with h | ⟨p, hp, hcp⟩
      · rcases List.mem_append.mp h with h2 | h2
        · exact Or.inl h2
        · exact Or.inr ⟨q, List.mem_cons_self q rest, List.mem_singleton.mp h2⟩
      · exact Or.inr ⟨p, List.mem_cons_of_mem q hp, hcp⟩

theorem labels_are_components (pts : List Cell) :
    ∀ c ∈ labels pts, ∃ p ∈ pts, c = component pts p := by
  intro c hc
  rcases labelsAux_sources pts pts [] c hc with h | h
  · exact absurd h (List.not_mem_nil c)
  · exact h

theorem labels_covers (pts : List Cell) : ∀ p ∈ pts, ∃ c ∈ labels pts, p ∈ c :=
  fun p hp => labelsAux_covers pts pts [] p hp

/-- Disjointness of two pixel lists. -/
def CompDisj (a b : List Cell) : Prop := ∀ x, x ∈ a → x ∉ b

theorem CompDisj_symm : Symmetric CompDisj := fun _ _ hab x hxb hxa => hab x hxa hxb

theorem labelsAux_pairwise (pts : List Cell) (hp : pts.Nodup) :
    ∀ (l : List Cell) (acc : List (List Cell)),
      (∀ c ∈ acc, ∃ r ∈ pts, c = component pts r) →
      List.Pairwise CompDisj acc →
      (∀ p2 ∈ l, p2 ∈ pts) →
      List.Pairwise CompDisj (labelsAux pts l acc) := by
  intro l
  induction l with
  | nil => intro acc hsrc hpw hl; exact hpw
  | cons q rest ih =>
    intro acc hsrc hpw hl
    simp only [labelsAux]
    split
    case isTrue hcond =>
      exact ih acc hsrc hpw (fun p2 h => hl p2 (List.mem_cons_of_mem q h))
    case isFalse hcond =>
      have hq : q ∈ pts := hl q (List.mem_cons_self q rest)
      refine ih _ ?_ ?_ (fun p2 h => hl p2 (List.mem_cons_of_mem q h))
      · intro c hc
        rcases List.mem_append.mp hc with h | h
        · exact hsrc c h
        · rw [List.mem_singleton.mp h]
          exact ⟨q, hq, rfl⟩
      · rw [List.pairwise_append]
        refine ⟨hpw, List.pairwise_singleton _ _, ?_⟩
        intro a ha b hb x hxa hxb
        rw [List.mem_singleton.mp hb] at hxb
        obtain ⟨r, hrpts, rfl⟩ := hsrc a ha
        have hq_in : q ∈ component pts r := by
          have h1 : Reach pts r x := reach_of_mem_component hxa
          have h2 : Reach pts q x := reach_of_mem_component hxb
          exact mem_component_of_reach hp hrpts (h1.trans2 (h2.symm2 hq))
        exact hcond (List.any_eq_true.mpr ⟨component pts r, ha, decide_eq_true hq_in⟩)

theorem labels_pairwise (pts : List Cell) (hp : pts.Nodup) :
    List.Pairwise CompDisj (labels pts) :=
  labelsAux_pairwise pts hp pts []
    (fun c hc => absurd hc (List.not_mem_nil c)) List.Pairwise.nil (fun _ h => h)

theorem labels_unique (pts : List Cell) (hp : pts.Nodup) {c1 c2 : List Cell} {x : Cell}
    (h1 : c1 ∈ labels pts) (h2 : c2 ∈ labels pts) (hx1 : x ∈ c1) (hx2 : x ∈ c2) :
    c1 = c2 := by
  by_contra hne
  exact (labels_pairwise pts hp).forall CompDisj_symm h1 h2 hne x hx1 hx2

theorem onPixels_nodup (h w : ℕ) (pix : ℕ → ℕ → Bool) : (onPixels h w pix).Nodup := by
  unfold onPixels
  rw [List.nodup_flatMap]
  constructor
  · intro i hi
    refine List.Nodup.map ?_ (List.Nodup.filter _ (List.nodup_range w))
    intro a b hab
    exact congrArg Prod.snd hab
  · refine List.Pairwise.imp ?_ (List.nodup_range h)
    intro i1 i2 hne
    intro x hx1 hx2
    obtain ⟨j1, -, rfl⟩ := List.mem_map.mp hx1
    obtain ⟨j2, -, he⟩ := List.mem_map.mp hx2
    exact hne (congrArg Prod.fst he).symm

theorem mem_onPixels (h w : ℕ) (pix : ℕ → ℕ → Bool) (i j : ℕ) :
    (i, j) ∈ onPixels h w pix ↔ i < h ∧ j < w ∧ pix i j = true := by
  unfold onPixels
  rw [List.mem_flatMap]
  constructor
  · rintro ⟨i2, hi2, hmem⟩
    obtain ⟨j2, hj2, hj2eq⟩ := List.mem_map.mp hmem
    obtain ⟨hj2r, hj2p⟩ := List.mem_filter.mp hj2
    rw [Prod.mk.injEq] at hj2eq
    obtain ⟨rfl, rfl⟩ := hj2eq
    exact ⟨List.mem_range.mp hi2, List.mem_range.mp hj2r, hj2p⟩
  · rintro ⟨hi, hj, hp⟩
    exact ⟨i, List.mem_range.mpr hi,
      List.mem_map.mpr ⟨j, List.mem_filter.mpr ⟨List.mem_range.mpr hj, hp⟩, rfl⟩⟩

theorem pickLastAux_mem : ∀ (l : List (List Cell)) (b : List Cell),
    pickLastAux b l ∈ b :: l := by
  intro l
  induction l with
  | nil => intro b; exact List.mem_singleton.mpr rfl
  | cons c rest ih =>
    intro b
    show pickLastAux (if b.length ≤ c.length then c else b) rest ∈ b :: c :: rest
    have h := ih (if b.length ≤ c.length then c else b)
    rcases List.mem_cons.mp h with h1 | h1
    · rw [h1]
      split
      · exact List.mem_cons_of_mem b (List.mem_cons_self c rest)
      · exact List.mem_cons_self b _
    · exact List.mem_cons_of_mem b (List.mem_cons_of_mem c h1)

theorem pickLastAux_max : ∀ (l : List (List Cell)) (b : List Cell),
    ∀ x ∈ b :: l, x.length ≤ (pickLastAux b l).length := by
  intro l
  induction l with
  | nil =>
    intro b x hx
    rw [List.mem_singleton.mp hx]
    exact le_refl _
  | cons c rest ih =>
    intro b x hx
    show x.length ≤ (pickLastAux (if b.length ≤ c.length then c else b) rest).length
    have hb : b.length ≤ (if b.length ≤ c.length then c else b).length := by
      split
      case isTrue hle => exact hle
      case isFalse hle => exact le_refl _
    have hc : c.length ≤ (if b.length ≤ c.length then c else b).length := by
      split
      case isTrue hle => exact le_refl _
      case isFalse hle => omega
    have hself := ih (if b.length ≤ c.length then c else b) _
      (List.mem_cons_self _ rest)
    rcases List.mem_cons.mp hx with rfl | hx1
    · exact le_trans hb hself
    · rcases List.mem_cons.mp hx1 with rfl | hx2
      · exact le_trans hc hself
      · exact ih _ x (List.mem_cons_of_mem _ hx2)

theorem pickLast_eq_none (l : List (List Cell)) : pickLast l = none ↔ l = [] := by
  cases l with
  | nil => simp [pickLast]
  | cons c rest => simp [pickLast]

theorem pickLast_spec (l : List (List Cell)) (c : List Cell) (hc : pickLast l = some c) :
    c ∈ l ∧ ∀ x ∈ l, x.length ≤ c.length := by
  cases l with
  | nil => exact absurd hc (by simp [pickLast])
  | cons b rest =>
    have hcv : c = pickLastAux b rest := by
      have : some (pickLastAux b rest) = some c := hc
      exact (Option.some.injEq _ _ ▸ this).symm
    rw [hcv]
    exact ⟨pickLastAux_mem rest b, pickLastAux_max rest b⟩

/-- C2 amended: without largest_only, remove_small_components retains exactly
the pixels whose 8-connected component has pixel count times stride at least
min_length. With largest_only, the min_length filter is applied FIRST: zero
components survive iff every labeled component fails the filter (in
particular on an empty raster), and whenever some component passes, exactly
one survives — one of overall greatest pixel count. -/
theorem remove_small_components_spec (h w : ℕ) (pix : ℕ → ℕ → Bool)
    (stride minLen : ℕ) :
    (∀ i j, remove_small_components h w pix stride minLen false false i j = true ↔
      ((i, j) ∈ onPixels h w pix ∧
        minLen ≤ (component (onPixels h w pix) (i, j)).length * stride)) ∧
    (survivors (onPixels h w pix) stride minLen true = [] ↔
      ∀ c ∈ labels (onPixels h w pix), c.length * stride < minLen) ∧
    (∀ c0 ∈ labels (onPixels h w pix), minLen ≤ c0.length * stride →
      ∃ c, survivors (onPixels h w pix) stride minLen true = [c] ∧
        c ∈ labels (onPixels h w pix) ∧ minLen ≤ c.length * stride ∧
        ∀ d ∈ labels (onPixels h w pix), d.length ≤ c.length) := by
  have hnd : (onPixels h w pix).Nodup := onPixels_nodup h w pix
  refine ⟨?_, ?_, ?_⟩
  · intro i j
    show rsc_core (onPixels h w pix) stride minLen false (i, j) = true ↔ _
    unfold rsc_core
    rw [List.any_eq_true]
    constructor
    · rintro ⟨c, hc, hmem⟩
      rw [decide_eq_true_eq] at hmem
      have hcbig : c ∈ (labels (onPixels h w pix)).filter
          (fun c => decide (minLen ≤ c.length * stride)) := hc
      obtain ⟨hclab, hclen⟩ := List.mem_filter.mp hcbig
      rw [decide_eq_true_eq] at hclen
      obtain ⟨r, hr, rfl⟩ := labels_are_components _ c hclab
      have hijpts : (i, j) ∈ onPixels h w pix := component_subset hr hmem
      have hlen := component_length_eq hnd hr hmem
      exact ⟨hijpts, by rw [hlen]; exact hclen⟩
    · rintro ⟨hijpts, hlen⟩
      obtain ⟨c, hclab, hmem⟩ := labels_covers _ (i, j) hijpts
      obtain ⟨r, hr, rfl⟩ := labels_are_components _ c hclab
      have hleneq := component_length_eq hnd hr hmem
      refine ⟨component (onPixels h w pix) r, ?_, decide_eq_true hmem⟩
      show _ ∈ (labels (onPixels h w pix)).filter (fun c => decide (minLen ≤ c.length * stride))
      refine List.mem_filter.mpr ⟨hclab, decide_eq_true ?_⟩
      rw [← hleneq]
      exact hlen
  · show (pickLast ((labels (onPixels h w pix)).filter
        (fun c => decide (minLen ≤ c.length * stride)))).toList = [] ↔ _
    constructor
    · intro he
      have hnone : pickLast ((labels (onPixels h w pix)).filter
          (fun c => decide (minLen ≤ c.length * stride))) = none := by
        cases hp : pickLast ((labels (onPixels h w pix)).filter
            (fun c => decide (minLen ≤ c.length * stride))) with
        | none => rfl
        | some c =>
          rw [hp] at he
          exact absurd he (by simp)
      rw [pickLast_eq_none] at hnone
      intro c hclab
      by_contra hge
      push_neg at hge
      have hcbig : c ∈ (labels (onPixels h w pix)).filter
          (fun c => decide (minLen ≤ c.length * stride)) :=
        List.mem_filter.mpr ⟨hclab, decide_eq_true hge⟩
      rw [hnone] at hcbig
      exact absurd hcbig (List.not_mem_nil c)
    · intro hall
      have hbig : (labels (onPixels h w pix)).filter
          (fun c => decide (minLen ≤ c.length * stride)) = [] := by
        rw [List.filter_eq_nil_iff]
        intro c hc
        rw [decide_eq_true_eq]
        exact not_le.mpr (hall c hc)
      rw [hbig]
      rfl
  · intro c0 hc0lab hc0len
    have hc0big : c0 ∈ (labels (onPixels h w pix)).filter
        (fun c => decide (minLen ≤ c.length * stride)) :=
      List.mem_filter.mpr ⟨hc0lab, decide_eq_true hc0len⟩
    cases hp : pickLast ((labels (onPixels h w pix)).filter
        (fun c => decide (minLen ≤ c.length * stride))) with
    | none =>
      rw [pickLast_eq_none] at hp
      rw [hp] at hc0big
      exact absurd hc0big (List.not_mem_nil c0)
    | some c =>
      obtain ⟨hcbig, hcmax⟩ := pickLast_spec _ c hp
      obtain ⟨hclab, hclen⟩ := List.mem_filter.mp hcbig
      rw [decide_eq_true_eq] at hclen
      refine ⟨c, ?_, hclab, hclen, ?_⟩
      · show (pickLast ((labels (onPixels h w pix)).filter
            (fun c => decide (minLen ≤ c.length * stride)))).toList = [c]
        rw [hp]
        rfl
      · intro d hdlab
        by_cases hd : minLen ≤ d.length * stride
        · exact hcmax d (List.mem_filter.mpr ⟨hdlab, decide_eq_true hd⟩)
        · push_neg at hd
          have : d.length * stride < c.length * stride := lt_of_lt_of_le hd hclen
          exact le_of_lt (Nat.lt_of_mul_lt_mul_right this)

/-- C2 counterexample: a non-empty 1x1 raster with stride 1, min_length 2 and
largest_only: the min_length filter runs before the largest-only selection and
removes the only (1-pixel) component, so zero components survive although the
input raster was not empty — contradicting the claim that zero components
survive only on an empty input. -/
theorem largest_only_empty_output_counterexample :
    remove_small_components 1 1 (fun _ _ => true) 1 2 true false 0 0 = false ∧
    onPixels 1 1 (fun _ _ => true) = [(0, 0)] := by
  constructor
  · decide
  · decide

/-- C2 amended witness: on a concrete 1x2 all-on raster, the retained-pixel
characterization holds at (0,0) and under largest_only exactly one maximal
component survives. -/
theorem remove_small_components_spec_witness :
    remove_small_components 1 2 (fun _ _ => true) 1 1 false false 0 0 = true ∧
    (∃ c, survivors (onPixels 1 2 (fun _ _ => true)) 1 1 true = [c] ∧
      ∀ d ∈ labels (onPixels 1 2 (fun _ _ => true)), d.length ≤ c.length) := by
  have h := remove_small_components_spec 1 2 (fun _ _ => true) 1 1
  constructor
  · rw [h.1 0 0]
    exact ⟨by decide, by decide⟩
  · have hc0m : component (onPixels 1 2 (fun _ _ => true)) (0, 0)
        ∈ labels (onPixels 1 2 (fun _ _ => true)) := by decide
    have hc0len : (1 : ℕ)
        ≤ (component (onPixels 1 2 (fun _ _ => true)) (0, 0)).length * 1 := by decide
    obtain ⟨c, hc1, hc2, hc3, hc4⟩ := h.2.2 _ hc0m hc0len
    exact ⟨c, hc1, hc4⟩

/-- A cell of the added 1-pixel frame in the padded raster. -/
def isFrame (h w : ℕ) (p : Cell) : Prop :=
  p.1 ≤ h + 1 ∧ p.2 ≤ w + 1 ∧ (p.1 = 0 ∨ p.1 = h + 1 ∨ p.2 = 0 ∨ p.2 = w + 1)

/-- A pixel of the original raster touching the raster border. -/
def isBorderB (h w : ℕ) (p : Cell) : Bool :=
  decide (p.1 = 0 ∨ p.1 + 1 = h ∨ p.2 = 0 ∨ p.2 + 1 = w)

/-- The pixels belonging to components that touch the raster border. -/
def border_touching (h w : ℕ) (pix : ℕ → ℕ → Bool) : List Cell :=
  (onPixels h w pix).filter
    (fun p => (component (onPixels h w pix) p).any (fun b => isBorderB h w b))

theorem mem_paddedPts_frame {h w : ℕ} {pix : ℕ → ℕ → Bool} {p : Cell}
    (hf : isFrame h w p) : p ∈ paddedPts h w pix := by
  obtain ⟨h1, h2, h3⟩ := hf
  have hp : p = (p.1, p.2) := rfl
  rw [hp]
  unfold paddedPts
  rw [mem_onPixels]
  refine ⟨by omega, by omega, ?_⟩
  unfold padPix
  rw [if_pos h3]

theorem mem_paddedPts_shift {h w : ℕ} {pix : ℕ → ℕ → Bool} {p : Cell}
    (hp : p ∈ onPixels h w pix) : (p.1 + 1, p.2 + 1) ∈ paddedPts h w pix := by
  have hp2 : p = (p.1, p.2) := rfl
  rw [hp2, mem_onPixels] at hp
  obtain ⟨h1, h2, h3⟩ := hp
  unfold paddedPts
  rw [mem_onPixels]
  refine ⟨by omega, by omega, ?_⟩
  unfold padPix
  split
  · rfl
  · simpa using h3

theorem adjb_of (p q : Cell) (hne : p ≠ q) (h1 : ((p.1 : ℤ) - q.1).natAbs ≤ 1)
    (h2 : ((p.2 : ℤ) - q.2).natAbs ≤ 1) : adjb p q = true := by
  unfold adjb
  rw [Bool.and_eq_true, Bool.and_eq_true]
  exact ⟨⟨decide_eq_true hne, decide_eq_true h1⟩, decide_eq_true h2⟩

theorem reach_top (h w : ℕ) (pix : ℕ → ℕ → Bool) :
    ∀ j : ℕ, j ≤ w + 1 → Reach (paddedPts h w pix) (0, 0) (0, j) := by
  intro j
  induction j with
  | zero => intro hj; exact Reach.refl
  | succ m ih =>
    intro hj
    refine Reach.step (ih (by omega)) ?_ ?_
    · exact mem_paddedPts_frame ⟨by omega, by omega, Or.inl rfl⟩
    · refine adjb_of _ _ ?_ (by omega) (by omega)
      intro he
      rw [Prod.mk.injEq] at he
      omega

theorem reach_left (h w : ℕ) (pix : ℕ → ℕ → Bool) :
    ∀ i : ℕ, i ≤ h + 1 → Reach (paddedPts h w pix) (0, 0) (i, 0) := by
  intro i
  induction i with
  | zero => intro hi; exact Reach.refl
  | succ m ih =>
    intro hi
    refine Reach.step (ih (by omega)) ?_ ?_
    · exact mem_paddedPts_frame ⟨by omega, by omega, Or.inr (Or.inr (Or.inl rfl))⟩
    · refine adjb_of _ _ ?_ (by omega) (by omega)
      intro he
      rw [Prod.mk.injEq] at he
      omega

theorem reach_bottom (h w : ℕ) (pix : ℕ → ℕ → Bool) :
    ∀ j : ℕ, j ≤ w + 1 → Reach (paddedPts h w pix) (0, 0) (h + 1, j) := by
  intro j
  induction j with
  | zero => intro hj; exact reach_left h w pix (h + 1) (le_refl _)
  | succ m ih =>
    intro hj
    refine Reach.step (ih (by omega)) ?_ ?_
    · exact mem_paddedPts_frame ⟨by omega, by omega, Or.inr (Or.inl rfl)⟩
    · refine adjb_of _ _ ?_ (by omega) (by omega)
      intro he
      rw [Prod.mk.injEq] at he
      omega

theorem reach_right (h w : ℕ) (pix : ℕ → ℕ → Bool) :
    ∀ i : ℕ, i ≤ h + 1 → Reach (paddedPts h w pix) (0, 0) (i, w + 1) := by
  intro i
  induction i with
  | zero => intro hi; exact reach_top h w pix (w + 1) (le_refl _)
  | succ m ih =>
    intro hi
    refine Reach.step (ih (by omega)) ?_ ?_
    · exact mem_paddedPts_frame ⟨by omega, by omega, Or.inr (Or.inr (Or.inr rfl))⟩
    · refine adjb_of _ _ ?_ (by omega) (by omega)
      intro he
      rw [Prod.mk.injEq] at he
      omega

theorem frame_reach {h w : ℕ} (pix : ℕ → ℕ → Bool) {p : Cell} (hf : isFrame h w p) :
    Reach (paddedPts h w pix) (0, 0) p := by
  obtain ⟨h1, h2, h3⟩ := hf
  have hp : p = (p.1, p.2) := rfl
  rw [hp]
  rcases h3 with h3 | h3 | h3 | h3
  · rw [h3]; exact reach_top h w pix p.2 h2
  · rw [h3]; exact reach_bottom h w pix p.2 h2
  · rw [h3]; exact reach_left h w pix p.1 h1
  · rw [h3]; exact reach_right h w pix p.1 h1

theorem bool_eq_of_iff {a b : Bool} (hab : a = true ↔ b = true) : a = b := by
  cases a <;> cases b <;> simp_all

theorem zero_mem_paddedPts (h w : ℕ) (pix : ℕ → ℕ → Bool) :
    ((0, 0) : Cell) ∈ paddedPts h w pix :=
  mem_paddedPts_frame ⟨by omega, by omega, Or.inl rfl⟩

theorem paddedPts_nodup (h w : ℕ) (pix : ℕ → ℕ → Bool) : (paddedPts h w pix).Nodup :=
  onPixels_nodup (h + 2) (w + 2) (padPix h w pix)

theorem frame_mem_component {h w : ℕ} {pix : ℕ → ℕ → Bool} {p : Cell}
    (hf : isFrame h w p) : p ∈ component (paddedPts h w pix) (0, 0) :=
  mem_component_of_reach (paddedPts_nodup h w pix) (zero_mem_paddedPts h w pix)
    (frame_reach pix hf)

theorem adjb_shift (q r : Cell) : adjb (q.1 + 1, q.2 + 1) (r.1 + 1, r.2 + 1) = adjb q r := by
  apply bool_eq_of_iff
  unfold adjb
  rw [Bool.and_eq_true, Bool.and_eq_true, Bool.and_eq_true, Bool.and_eq_true]
  simp only [decide_eq_true_eq]
  constructor
  · rintro ⟨⟨hne, hd1⟩, hd2⟩
    refine ⟨⟨?_, by omega⟩, by omega⟩
    intro he
    exact hne (by rw [he])
  · rintro ⟨⟨hne, hd1⟩, hd2⟩
    refine ⟨⟨?_, by omega⟩, by omega⟩
    intro he
    rw [Prod.mk.injEq] at he
    exact hne (Prod.ext (by omega) (by omega))

/-- Reachability in the original raster carries over to the padded raster
under the 1-pixel coordinate shift. -/
theorem reach_shift {h w : ℕ} {pix : ℕ → ℕ → Bool} {x y : Cell}
    (hr : Reach (onPixels h w pix) x y) :
    Reach (paddedPts h w pix) (x.1 + 1, x.2 + 1) (y.1 + 1, y.2 + 1) := by
  induction hr with
  | refl => exact Reach.refl
  | step hq hmem hadj ih =>
    rename_i q2 r2
    refine Reach.step ih (mem_paddedPts_shift hmem) ?_
    rw [adjb_shift]
    exact hadj

/-- A border on-pixel's shifted image lies in the frame component. -/
theorem border_pixel_shift_mem {h w : ℕ} {pix : ℕ → ℕ → Bool} {p : Cell}
    (hp : p ∈ onPixels h w pix) (hb : isBorderB h w p = true) :
    (p.1 + 1, p.2 + 1) ∈ component (paddedPts h w pix) (0, 0) := by
  have hnd := paddedPts_nodup h w pix
  have h0 := zero_mem_paddedPts h w pix
  have hshift : (p.1 + 1, p.2 + 1) ∈ paddedPts h w pix := mem_paddedPts_shift hp
  have hpm : p = (p.1, p.2) := rfl
  rw [hpm, mem_onPixels] at hp
  obtain ⟨hph, hpw, -⟩ := hp
  unfold isBorderB at hb
  rw [decide_eq_true_eq] at hb
  apply mem_component_of_reach hnd h0
  rcases hb with hb | hb | hb | hb
  · refine Reach.step (frame_reach pix ⟨by omega, by omega, Or.inl rfl⟩ :
      Reach _ _ ((0 : ℕ), p.2 + 1)) hshift ?_
    refine adjb_of _ _ ?_ (by omega) (by omega)
    intro he
    rw [Prod.mk.injEq] at he
    omega
  · refine Reach.step (frame_reach pix ⟨by omega, by omega, Or.inr (Or.inl rfl)⟩ :
      Reach _ _ ((h + 1 : ℕ), p.2 + 1)) hshift ?_
    refine adjb_of _ _ ?_ (by omega) (by omega)
    intro he
    rw [Prod.mk.injEq] at he
    omega
  · refine Reach.step (frame_reach pix ⟨by omega, by omega, Or.inr (Or.inr (Or.inl rfl))⟩ :
      Reach _ _ (p.1 + 1, (0 : ℕ))) hshift ?_
    refine adjb_of _ _ ?_ (by omega) (by omega)
    intro he
    rw [Prod.mk.injEq] at he
    omega
  · refine Reach.step (frame_reach pix ⟨by omega, by omega, Or.inr (Or.inr (Or.inr rfl))⟩ :
      Reach _ _ (p.1 + 1, (w + 1 : ℕ))) hshift ?_
    refine adjb_of _ _ ?_ (by omega) (by omega)
    intro he
    rw [Prod.mk.injEq] at he
    omega

theorem border_touching_shift_mem {h w : ℕ} {pix : ℕ → ℕ → Bool} {p : Cell}
    (hp : p ∈ border_touching h w pix) :
    (p.1 + 1, p.2 + 1) ∈ component (paddedPts h w pix) (0, 0) := by
  unfold border_touching at hp
  obtain ⟨hpts, hcond⟩ := List.mem_filter.mp hp
  obtain ⟨b, hb, hbB⟩ := List.any_eq_true.mp hcond
  have hbpts : b ∈ onPixels h w pix := component_subset hpts hb
  have hrb : Reach (onPixels h w pix) p b := reach_of_mem_component hb
  have h1 : Reach (paddedPts h w pix) (p.1 + 1, p.2 + 1) (b.1 + 1, b.2 + 1) :=
    reach_shift hrb
  have h2 : (b.1 + 1, b.2 + 1) ∈ component (paddedPts h w pix) (0, 0) :=
    border_pixel_shift_mem hbpts hbB
  have h3 : Reach (paddedPts h w pix) (0, 0) (b.1 + 1, b.2 + 1) :=
    reach_of_mem_component h2
  have hshiftp : (p.1 + 1, p.2 + 1) ∈ paddedPts h w pix := mem_paddedPts_shift hpts
  have h4 : Reach (paddedPts h w pix) (b.1 + 1, b.2 + 1) (p.1 + 1, p.2 + 1) :=
    h1.symm2 hshiftp
  exact mem_component_of_reach (paddedPts_nodup h w pix) (zero_mem_paddedPts h w pix)
    (h3.trans2 h4)

theorem survivors_subset_labels (pts : List Cell) (stride minLen : ℕ) (lo : Bool) :
    ∀ c ∈ survivors pts stride minLen lo, c ∈ labels pts := by
  intro c hc
  cases lo with
  | false =>
    have hc2 : c ∈ (labels pts).filter (fun c => decide (minLen ≤ c.length * stride)) := hc
    exact (List.mem_filter.mp hc2).1
  | true =>
    have hc2 : c ∈ (pickLast ((labels pts).filter
        (fun c => decide (minLen ≤ c.length * stride)))).toList := hc
    cases hp : pickLast ((labels pts).filter
        (fun c => decide (minLen ≤ c.length * stride))) with
    | none =>
      rw [hp] at hc2
      exact absurd hc2 (by simp)
    | some d =>
      rw [hp] at hc2
      have hcd : c = d := by simpa using hc2
      rw [hcd]
      exact (List.mem_filter.mp (pickLast_spec _ d hp).1).1

theorem rsc_core_eq_class_mem {pts : List Cell} (hnd : pts.Nodup) {z : Cell}
    {c00 : List Cell} (hc00 : c00 ∈ labels pts) (hz : z ∈ c00)
    (stride minLen : ℕ) (lo : Bool) :
    rsc_core pts stride minLen lo z = true ↔ c00 ∈ survivors pts stride minLen lo := by
  unfold rsc_core
  rw [List.any_eq_true]
  constructor
  · rintro ⟨c, hcs, hmem⟩
    rw [decide_eq_true_eq] at hmem
    have hclab : c ∈ labels pts := survivors_subset_labels pts stride minLen lo c hcs
    have hcc : c = c00 := labels_unique pts hnd hclab hc00 hmem hz
    rw [← hcc]
    exact hcs
  · intro hcs
    exact ⟨c00, hcs, decide_eq_true hz⟩

/-- C10: with padded_boundary the raster is padded with a 1-pixel frame of
on-pixels before 8-connected labeling and the frame is stripped afterwards;
every frame pixel and every (shifted) pixel of a border-touching component
lies in the single merged component of the frame, so all border-touching
components are retained or dropped jointly, and the merged component's
measured length (count times stride) strictly exceeds the sum of the true
pixel counts of the border-touching components times stride. -/
theorem padded_boundary_spec (h w : ℕ) (pix : ℕ → ℕ → Bool) (stride minLen : ℕ)
    (largestOnly : Bool) (hstride : 0 < stride) :
    (∀ p : Cell, isFrame h w p → p ∈ component (paddedPts h w pix) (0, 0)) ∧
    (∀ p ∈ border_touching h w pix,
      (p.1 + 1, p.2 + 1) ∈ component (paddedPts h w pix) (0, 0)) ∧
    (∀ p ∈ border_touching h w pix, ∀ q ∈ border_touching h w pix,
      remove_small_components h w pix stride minLen largestOnly true p.1 p.2
        = remove_small_components h w pix stride minLen largestOnly true q.1 q.2) ∧
    (border_touching h w pix).length * stride
      < (component (paddedPts h w pix) (0, 0)).length * stride := by
  have hnd := paddedPts_nodup h w pix
  have h0 := zero_mem_paddedPts h w pix
  refine ⟨fun p hf => frame_mem_component hf, fun p hp => border_touching_shift_mem hp, ?_, ?_⟩
  · obtain ⟨c00, hc00, h00mem⟩ := labels_covers (paddedPts h w pix) (0, 0) h0
    have key : ∀ z ∈ border_touching h w pix,
        (remove_small_components h w pix stride minLen largestOnly true z.1 z.2 = true ↔
          c00 ∈ survivors (paddedPts h w pix) stride minLen largestOnly) := by
      intro z hz
      show rsc_core (paddedPts h w pix) stride minLen largestOnly (z.1 + 1, z.2 + 1)
          = true ↔ _
      have hsz : (z.1 + 1, z.2 + 1) ∈ component (paddedPts h w pix) (0, 0) :=
        border_touching_shift_mem hz
      obtain ⟨r, hr, rfl⟩ := labels_are_components _ c00 hc00
      have hszc : (z.1 + 1, z.2 + 1) ∈ component (paddedPts h w pix) r :=
        (component_eqv hnd hr h00mem _).mp hsz
      exact rsc_core_eq_class_mem hnd hc00 hszc stride minLen largestOnly
    intro p hp q hq
    apply bool_eq_of_iff
    rw [key p hp, key q hq]
  · have hSsub : ∀ x ∈ (border_touching h w pix).map (fun p => (p.1 + 1, p.2 + 1)),
        x ∈ component (paddedPts h w pix) (0, 0) := by
      intro x hx
      obtain ⟨p, hp, rfl⟩ := List.mem_map.mp hx
      exact border_touching_shift_mem hp
    have hSnodup : ((border_touching h w pix).map (fun p => (p.1 + 1, p.2 + 1))).Nodup := by
      refine List.Nodup.map ?_ (List.Nodup.filter _ (onPixels_nodup h w pix))
      intro a b hab
      rw [Prod.mk.injEq] at hab
      exact Prod.ext (by omega) (by omega)
    have h0S : ((0, 0) : Cell)
        ∉ (border_touching h w pix).map (fun p => (p.1 + 1, p.2 + 1)) := by
      intro hmem
      obtain ⟨p, -, he⟩ := List.mem_map.mp hmem
      rw [Prod.mk.injEq] at he
      omega
    have hcons : (((0, 0) : Cell)
        :: (border_touching h w pix).map (fun p => (p.1 + 1, p.2 + 1))).Nodup :=
      List.nodup_cons.mpr ⟨h0S, hSnodup⟩
    have hconsub : (((0, 0) : Cell)
        :: (border_touching h w pix).map (fun p => (p.1 + 1, p.2 + 1)))
        ⊆ component (paddedPts h w pix) (0, 0) := by
      intro x hx
      rcases List.mem_cons.mp hx with rfl | hx2
      · exact mem_component_self _
      · exact hSsub x hx2
    have hlen := nodup_subset_length hcons hconsub
    have hlt : (border_touching h w pix).length
        < (component (paddedPts h w pix) (0, 0)).length := by
      simp only [List.length_cons, List.length_map] at hlen
      omega
    exact mul_lt_mul_of_pos_right hlt hstride

/-- C10 witness: on the concrete 1x1 all-on raster the frame corner (2,2)
lies in the frame component, and the merged component strictly outweighs the
border-touching pixels. -/
theorem padded_boundary_spec_witness :
    (((2, 2) : Cell) ∈ component (paddedPts 1 1 (fun _ _ => true)) (0, 0)) ∧
    (border_touching 1 1 (fun _ _ => true)).length * 1
      < (component (paddedPts 1 1 (fun _ _ => true)) (0, 0)).length * 1 := by
  have h := padded_boundary_spec 1 1 (fun _ _ => true) 1 1 false (by decide)
  exact ⟨h.1 (2, 2) (by unfold isFrame; norm_num), h.2.2.2⟩

theorem mem_of_mem_allPairs {α : Type} :
    ∀ (l : List α) (e : α × α), e ∈ allPairs l → e.1 ∈ l ∧ e.2 ∈ l := by
  intro l
  induction l with
  | nil => intro e he; simp [allPairs] at he
  | cons x xs ih =>
    intro e he
    simp only [allPairs] at he
    rcases List.mem_append.mp he with h | h
    · obtain ⟨y, hy, rfl⟩ := List.mem_map.mp h
      exact ⟨List.mem_cons_self x xs, List.mem_cons_of_mem x hy⟩
    · have h2 := ih e h
      exact ⟨List.mem_cons_of_mem x h2.1, List.mem_cons_of_mem x h2.2⟩

/-- The kept graph edges as segments in scaled output coordinates: the
`lines = np.array([xy[u], xy[v]]).swapaxes(0,1)` fed to linemerge
(rd.py line 243). -/
def lineSegs (skel : List Pix) (stride : ℚ) (n : ℕ) : List Seg :=
  (graphEdges skel stride n).map (fun e => (scaleXY stride n e.1, scaleXY stride n e.2))

/-- C8: vectorize_skeleton rounds every scaled node coordinate to 2 decimal
places (`xy.round(2)`) before the pixel graph is built, and the vertices of
the linemerged, simplified shape are drawn from the scaled segment endpoints
(shapely linemerge chains the input segments and simplify keeps a subset of
their vertices — abstracted by `hms`); hence every vertex of the merged and
simplified polylines, before any duplicate repair, is an integer multiple of
0.01 in each axis, equal to the pixel coordinate times stride * (n/(n-1))
rounded half-to-even at 2 decimals, and in general different from the exact
product of the scaling formula. -/
theorem merged_simplified_vertices_centesimal
    (mergeSimplify : List Seg → List LString) (skel : List Pix) (stride : ℚ) (n : ℕ)
    (hms : ∀ es : List Seg, ∀ p ∈ allPts (mergeSimplify es), ∃ e ∈ es, p = e.1 ∨ p = e.2) :
    (∀ p ∈ allPts (mergeSimplify (lineSegs skel stride n)),
      (∃ k : ℤ, p.1 = (k : ℚ) / 100) ∧ (∃ k : ℤ, p.2 = (k : ℚ) / 100) ∧
      ∃ q ∈ skel, p = scaleXY stride n q ∧
        p.1 = roundTo 2 ((q.1 : ℚ) * stride * ((n : ℚ) / ((n : ℚ) - 1))) ∧
        p.2 = roundTo 2 ((q.2 : ℚ) * stride * ((n : ℚ) / ((n : ℚ) - 1)))) ∧
    (∃ q : Pix, (scaleXY 1 7 q).1 ≠ (q.1 : ℚ) * 1 * (((7:ℕ) : ℚ) / (((7:ℕ) : ℚ) - 1))) := by
  have h100 : (100 : ℚ) = 10 ^ 2 := by norm_num
  constructor
  · intro p hp
    obtain ⟨e, he, hpe⟩ := hms _ p hp
    obtain ⟨uv, huv, rfl⟩ := List.mem_map.mp he
    have hcand : uv ∈ candidates skel stride n := (List.mem_filter.mp huv).1
    have hap : uv ∈ allPairs skel := (List.mem_filter.mp hcand).1
    have huv2 := mem_of_mem_allPairs skel uv hap
    rcases hpe with h | h
    · refine ⟨?_, ?_, uv.1, huv2.1, h, by rw [h]; rfl, by rw [h]; rfl⟩
      · obtain ⟨k, hk⟩ :=
          roundTo_eq_int_div 2 ((uv.1.1 : ℚ) * stride * ((n : ℚ) / ((n : ℚ) - 1)))
        exact ⟨k, by rw [h, h100]; exact hk⟩
      · obtain ⟨k, hk⟩ :=
          roundTo_eq_int_div 2 ((uv.1.2 : ℚ) * stride * ((n : ℚ) / ((n : ℚ) - 1)))
        exact ⟨k, by rw [h, h100]; exact hk⟩
    · refine ⟨?_, ?_, uv.2, huv2.2, h, by rw [h]; rfl, by rw [h]; rfl⟩
      · obtain ⟨k, hk⟩ :=
          roundTo_eq_int_div 2 ((uv.2.1 : ℚ) * stride * ((n : ℚ) / ((n : ℚ) - 1)))
        exact ⟨k, by rw [h, h100]; exact hk⟩
      · obtain ⟨k, hk⟩ :=
          roundTo_eq_int_div 2 ((uv.2.2 : ℚ) * stride * ((n : ℚ) / ((n : ℚ) - 1)))
        exact ⟨k, by rw [h, h100]; exact hk⟩
  · refine ⟨(1, 0), ?_⟩
    have hval : (scaleXY 1 7 ((1:ℤ), (0:ℤ))).1 = 117 / 100 := by
      show roundTo 2 _ = 117 / 100
      unfold roundTo
      rw [show (((1:ℤ) : ℚ)) * 1 * (((7:ℕ) : ℚ) / (((7:ℕ) : ℚ) - 1)) * 10 ^ 2 = (350 : ℚ) / 3 by
        push_cast; ring]
      rw [rhe_350_3]
      norm_num
    rw [hval]
    push_cast
    norm_num

theorem horiz_mem_graphEdges_L :
    ((((1:ℤ), (0:ℤ)), ((1:ℤ), (1:ℤ))) ∈ graphEdges skelL 17 18) := by
  unfold graphEdges
  rw [List.mem_filter]
  constructor
  · unfold candidates
    rw [List.mem_filter]
    constructor
    · show _ ∈ allPairs skelL
      simp [allPairs, skelL]
    · rw [decide_eq_true_eq]
      show sqDistQ (scaleXY 17 18 (1, 0)) (scaleXY 17 18 (1, 1)) ≤ (3/2 * 17) ^ 2
      rw [scaleXY_L_int 1 0, scaleXY_L_int 1 1]
      unfold sqDistQ
      push_cast
      norm_num
  · show keepEdge skelL (1, 0) (1, 1) = true
    unfold keepEdge
    rw [if_neg]
    unfold sqDistZ
    norm_num

/-- C8 witness: in the L-shaped skeleton at stride 17 in an 18x18 raster, the
vertex (18,0) of the merged shape is the rounded scaled image of the pixel
(1,0): an exact multiple of 0.01. -/
theorem merged_simplified_vertices_centesimal_witness :
    (((18:ℚ), (0:ℚ)) ∈ allPts (mergeSimple (lineSegs skelL 17 18))) ∧
    (∃ k : ℤ, (18:ℚ) = (k : ℚ) / 100) ∧
    (∃ q ∈ skelL, ((18:ℚ), (0:ℚ)) = scaleXY 17 18 q) := by
  have h := merged_simplified_vertices_centesimal mergeSimple skelL 17 18
    (fun es => mergeSimple_pts es)
  have hsc : scaleXY 17 18 ((1:ℤ), (0:ℤ)) = ((18:ℚ), (0:ℚ)) := by
    rw [scaleXY_L_int 1 0]
    norm_num
  have hseg : (scaleXY 17 18 ((1:ℤ), (0:ℤ)), scaleXY 17 18 ((1:ℤ), (1:ℤ)))
      ∈ lineSegs skelL 17 18 := by
    unfold lineSegs
    exact List.mem_map.mpr ⟨(((1:ℤ), (0:ℤ)), ((1:ℤ), (1:ℤ))), horiz_mem_graphEdges_L, rfl⟩
  have hstr : [scaleXY 17 18 ((1:ℤ), (0:ℤ)), scaleXY 17 18 ((1:ℤ), (1:ℤ))]
      ∈ mergeSimple (lineSegs skelL 17 18) :=
    List.mem_map_of_mem (fun e : Seg => [e.1, e.2]) hseg
  have hmem : ((18:ℚ), (0:ℚ)) ∈ allPts (mergeSimple (lineSegs skelL 17 18)) := by
    unfold allPts
    refine List.mem_flatMap.mpr ⟨_, hstr, ?_⟩
    show ((18:ℚ), (0:ℚ)) ∈ [scaleXY 17 18 ((1:ℤ), (0:ℤ)), scaleXY 17 18 ((1:ℤ), (1:ℤ))]
    rw [hsc]
    exact List.mem_cons_self _ _
  obtain ⟨hk1, hk2, q, hq, hpq, -, -⟩ := h.1 _ hmem
  exact ⟨hmem, hk1, q, hq, hpq⟩
